import Mathlib

/-!
Verification of the size-computation core of git-sizer (`src/sizes/sizes.go`).

The Go source is shallowly embedded:
* `Count` (uint64) becomes `Nat`; the places where 64-bit overflow matters
  carry an explicit `% U64`.
* Object identifiers (`Oid`, a `[20]byte`) become `List Nat` (their bytes).
* Go byte strings (tree payloads, entry names) become `List Nat`; the length
  of a Go string is its byte count, which is the `List.length` here.
* The two memoization maps of `SizeCache` become association lists with
  insert-at-front (newest binding wins on lookup), matching Go map semantics
  for the lookups performed.
* The `todo` stack (`ToDoList`, push/peek/drop at the end of a slice) is a
  `List` with its head as the top of the stack.
* The external `git cat-file` processes behind `Repository` are modelled at
  the parsed interface for the traversal engine (`Repo`), and at the raw
  response-line level for the protocol claims (`ReadHeaderProto`,
  `ReadTreeProto`).
* Loops are modelled with explicit fuel so that every definition is a
  computable structural recursion; the iteration of `fill` is exposed as a
  step function (`fillStep`) iterated by `fillIter`.
-/

/-- 2^64, the modulus of Go's uint64 arithmetic. -/
def U64 : Nat := 2 ^ 64

/-- math.MaxUint64, the largest value representable in a `Count`. -/
def U64MAX : Nat := 2 ^ 64 - 1

/-- Lines 23-30: the sum of two Counts, capped at math.MaxUint64.  The Go
code adds with wraparound and detects overflow by `n < n1`. -/
def addCapped (n1 n2 : Nat) : Nat :=
  let n := (n1 + n2) % U64
  if n < n1 then U64MAX else n

/-- Lines 229-254: the aggregate size record of one tree object.  All
fields are Counts (uint64); in-range values are below `U64`. -/
structure TreeSize where
  MaxDepth : Nat := 0
  MaxPathLength : Nat := 0
  TreeCount : Nat := 0
  MaxTreeEntries : Nat := 0
  BlobCount : Nat := 0
  BlobSize : Nat := 0
  LinkCount : Nat := 0
  SubmoduleCount : Nat := 0
deriving DecidableEq

/-- Lines 273-278: set `MaxDepth` to `max (s.MaxDepth) maxDepth`. -/
def TreeSize.recordDepth (s : TreeSize) (maxDepth : Nat) : TreeSize :=
  if maxDepth > s.MaxDepth then { s with MaxDepth := maxDepth } else s

/-- Lines 280-285: set `MaxPathLength` to `max (s.MaxPathLength) pathLength`. -/
def TreeSize.recordPathLength (s : TreeSize) (pathLength : Nat) : TreeSize :=
  if pathLength > s.MaxPathLength then { s with MaxPathLength := pathLength } else s

/-- Lines 256-271: merge the record `s2` of a subtree child named
`filename` into `s`.  Go computes `Count(len(filename))+1` in uint64; a Go
string length is bounded by the platform int, so that increment cannot
wrap, and it is modelled as the exact `filename.length + 1`. -/
def TreeSize.addDescendent (s : TreeSize) (filename : List Nat) (s2 : TreeSize) : TreeSize :=
  let s := s.recordDepth s2.MaxDepth
  let s :=
    if s2.MaxPathLength > 0 then
      s.recordPathLength (addCapped (filename.length + 1) s2.MaxPathLength)
    else
      s.recordPathLength filename.length
  { s with
    TreeCount := addCapped s.TreeCount s2.TreeCount,
    MaxTreeEntries :=
      if s2.MaxTreeEntries > s.MaxTreeEntries then s2.MaxTreeEntries else s.MaxTreeEntries,
    BlobCount := addCapped s.BlobCount s2.BlobCount,
    BlobSize := addCapped s.BlobSize s2.BlobSize,
    LinkCount := addCapped s.LinkCount s2.LinkCount,
    SubmoduleCount := addCapped s.SubmoduleCount s2.SubmoduleCount }

/-- Lines 287-294: record a direct blob descendant of the given size. -/
def TreeSize.addBlob (s : TreeSize) (filename : List Nat) (size : Nat) : TreeSize :=
  let s := s.recordDepth 1
  let s := s.recordPathLength filename.length
  { s with
    BlobSize := addCapped s.BlobSize size,
    BlobCount := addCapped s.BlobCount 1 }

/-- Lines 296-301: record a direct symlink descendant. -/
def TreeSize.addLink (s : TreeSize) (filename : List Nat) : TreeSize :=
  let s := s.recordDepth 1
  let s := s.recordPathLength filename.length
  { s with LinkCount := addCapped s.LinkCount 1 }

/-- Lines 303-308: record a direct submodule descendant. -/
def TreeSize.addSubmodule (s : TreeSize) (filename : List Nat) : TreeSize :=
  let s := s.recordDepth 1
  let s := s.recordPathLength filename.length
  { s with SubmoduleCount := addCapped s.SubmoduleCount 1 }

/-- Lines 549-554 of `queueTree`: finalize a tree's own record after all
direct entries are folded in: add one (capped) to the depth for the tree's
own level and fold the direct entry count into `MaxTreeEntries`.
`entryCount` arrives here exactly as the Go uint64 variable holds it. -/
def finalizeTree (size : TreeSize) (entryCount : Nat) : TreeSize :=
  let size := { size with MaxDepth := addCapped size.MaxDepth 1 }
  if entryCount > size.MaxTreeEntries then { size with MaxTreeEntries := entryCount } else size

/-- Lines 167-172: one decoded tree entry.  The Go struct also declares a
`Type` field, but `NextEntry` never assigns it and `queueTree` never reads
it, so it is omitted. -/
structure TreeEntry where
  Name : List Nat
  Oid : List Nat
  Filemode : Nat
deriving DecidableEq

/-- Model of `bytes.IndexByte` combined with the two reslicings around the
found byte: `some (pre, post)` splits the list at the first occurrence of
`b`, which is dropped; `none` means `b` does not occur. -/
def splitAtByte (b : Nat) : List Nat → Option (List Nat × List Nat)
  | [] => none
  | x :: xs =>
    if x = b then some ([], xs)
    else
      match splitAtByte b xs with
      | none => none
      | some (pre, post) => some (x :: pre, post)

/-- True when `b` is the code of an ASCII octal digit. -/
def isOctalDigit (b : Nat) : Bool := 48 ≤ b && b ≤ 55

/-- Value of a string of octal digit bytes. -/
def octalValue (l : List Nat) : Nat := l.foldl (fun acc b => acc * 8 + (b - 48)) 0

/-- Model of `strconv.ParseUint(string(bytes), 8, 32)`: fails on an empty
string, on a non-octal-digit byte, and on values needing more than 32
bits. -/
def parseOctal32 (l : List Nat) : Option Nat :=
  if l.isEmpty then none
  else if l.all isOctalDigit then
    if octalValue l < 2 ^ 32 then some (octalValue l) else none
  else none

/-- Lines 185-217: decode the next entry from the unread part of a tree
payload.  `.ok none` is the Go `(false, nil)` end of iteration; a produced
entry comes with the remaining data (the Go iterator's mutated `data`). -/
def NextEntry (data : List Nat) : Except String (Option (TreeEntry × List Nat)) :=
  if data.isEmpty then .ok none
  else
    match splitAtByte 32 data with
    | none => .error "failed to find SP after mode"
    | some (modeBytes, afterMode) =>
      match parseOctal32 modeBytes with
      | none => .error "invalid mode syntax"
      | some mode =>
        match splitAtByte 0 afterMode with
        | none => .error "failed to find NUL after filename"
        | some (name, afterName) =>
          if afterName.length < 20 then .error "tree entry ends unexpectedly"
          else .ok (some ({ Name := name, Oid := afterName.take 20, Filemode := mode }, afterName.drop 20))

/-- Repeated `NextEntry` until end of data or a decode error: the list of
entries produced, and `some msg` when decoding stopped with that error.
Fuelled; each produced entry consumes at least 22 bytes, so
`data.length + 1` fuel always suffices. -/
def parseEntriesF : Nat → List Nat → List TreeEntry × Option String
  | 0, _ => ([], some "out of fuel")
  | fuel + 1, data =>
    match NextEntry data with
    | .error msg => ([], some msg)
    | .ok none => ([], none)
    | .ok (some (e, rest)) =>
      let p := parseEntriesF fuel rest
      (e :: p.1, p.2)

/-- Full decode of a tree payload. -/
def parseEntries (data : List Nat) : List TreeEntry × Option String :=
  parseEntriesF (data.length + 1) data

/-- The error values that flow through the engine.  `notYetKnown` is the
sentinel of line 345; `fuelOut` is an artifact of fuelled modelling and is
proved unreachable wherever it matters. -/
inductive GoErr where
  | missingObject (oid : List Nat)
  | unexpectedType (t : String) (oid : List Nat)
  | notABlob (oid : List Nat) (t : String)
  | unexpectedObjType (oid : List Nat) (t : String)
  | formatError (msg : String)
  | notYetKnown
  | fuelOut
deriving DecidableEq

/-- The external store as seen by the traversal engine, at the parsed
interface: the header (type and size) of each object, `none` when the
object is missing, and the raw payload served for a tree object (already
stripped of the trailing delimiter).  The raw response-line protocol of
lines 109-165 is modelled separately below. -/
structure Repo where
  headerOf : List Nat → Option (String × Nat)
  treeDataOf : List Nat → List Nat

/-- Lines 109-127 at the engine level: a missing object is an error. -/
def Repo.ReadHeader (repo : Repo) (oid : List Nat) : Except GoErr (String × Nat) :=
  match repo.headerOf oid with
  | none => .error (.missingObject oid)
  | some ts => .ok ts

/-- Lines 133-165 at the engine level: a missing object is an error, a
non-tree type is an error, otherwise the tree's payload bytes. -/
def Repo.ReadTree (repo : Repo) (oid : List Nat) : Except GoErr (List Nat) :=
  match repo.headerOf oid with
  | none => .error (.missingObject oid)
  | some (t, _) => if t = "tree" then .ok (repo.treeDataOf oid) else .error (.unexpectedType t oid)

/-- Association-list lookup, newest binding first (Go map read for the two
memoization tables). -/
def lookupA {α : Type} : List (List Nat × α) → List Nat → Option α
  | [], _ => none
  | (k, v) :: rest, oid => if k = oid then some v else lookupA rest oid

/-- Lines 347-364: the mutable state of a `SizeCache` (the `repo` handle is
passed separately since it is pure here).  `todo`'s head is the top of the
stack. -/
structure SizeCache where
  treeSizes : List (List Nat × TreeSize) := []
  blobSizes : List (List Nat × Nat) := []
  todo : List (List Nat) := []
deriving DecidableEq

/-- Lines 398-412: memoized blob-size lookup. -/
def SizeCache.BlobSize (repo : Repo) (cache : SizeCache) (oid : List Nat) :
    Except GoErr Nat × SizeCache :=
  match lookupA cache.blobSizes oid with
  | some size => (.ok size, cache)
  | none =>
    match Repo.ReadHeader repo oid with
    | .error e => (.error e, cache)
    | .ok (objectType, objectSize) =>
      if objectType ≠ "blob" then (.error (.notABlob oid objectType), cache)
      else (.ok objectSize, { cache with blobSizes := (oid, objectSize) :: cache.blobSizes })

/-- Lines 488-555: the entry loop of `queueTree`, fuelled.  `ok` is the
flag of line 478; `entryCount` the uint64 counter of line 480 (its
increment on line 500 is a plain wrapping uint64 addition, hence the
`% U64`); `size` the record being accumulated.  The final `if`s mirror
lines 545-554.  Fuel `data.length + 1` always suffices. -/
def queueTreeLoopF (repo : Repo) :
    Nat → SizeCache → List Nat → Bool → Nat → TreeSize → Except GoErr TreeSize × SizeCache
  | 0, cache, _, _, _, _ => (.error .fuelOut, cache)
  | fuel + 1, cache, data, ok, entryCount, size =>
    match NextEntry data with
    | .error msg => (.error (.formatError msg), cache)
    | .ok none =>
      if ok then (.ok (finalizeTree size entryCount), cache)
      else (.error .notYetKnown, cache)
    | .ok (some (entry, rest)) =>
      let entryCount := (entryCount + 1) % U64
      if entry.Filemode &&& 0o170000 = 0o040000 then
        -- Tree
        match lookupA cache.treeSizes entry.Oid with
        | some subsize =>
          queueTreeLoopF repo fuel cache rest ok entryCount
            (if ok then size.addDescendent entry.Name subsize else size)
        | none =>
          queueTreeLoopF repo fuel { cache with todo := entry.Oid :: cache.todo } rest false
            entryCount size
      else if entry.Filemode &&& 0o170000 = 0o160000 then
        -- Commit (submodule)
        queueTreeLoopF repo fuel cache rest ok entryCount
          (if ok then size.addSubmodule entry.Name else size)
      else if entry.Filemode &&& 0o170000 = 0o120000 then
        -- Symlink
        queueTreeLoopF repo fuel cache rest ok entryCount
          (if ok then size.addLink entry.Name else size)
      else
        -- Blob
        match lookupA cache.blobSizes entry.Oid with
        | some blobSize =>
          queueTreeLoopF repo fuel cache rest ok entryCount
            (if ok then size.addBlob entry.Name blobSize else size)
        | none =>
          match SizeCache.BlobSize repo cache entry.Oid with
          | (.error e, cache') => (.error e, cache')
          | (.ok blobSize, cache') =>
            queueTreeLoopF repo fuel cache' rest ok entryCount (size.addBlob entry.Name blobSize)

/-- Lines 470-555: compute the size of the tree `oid` if the sizes of its
constituents are known, pushing unknown subtree children onto `todo` and
returning `notYetKnown` otherwise. -/
def SizeCache.queueTree (repo : Repo) (cache : SizeCache) (oid : List Nat) :
    Except GoErr TreeSize × SizeCache :=
  match Repo.ReadTree repo oid with
  | .error e => (.error e, cache)
  | .ok data => queueTreeLoopF repo (data.length + 1) cache data true 0 { TreeCount := 1 }

/-- The same fold as `queueTreeLoopF`, but over an already-decoded entry
list; `tail` records how decoding ended (`some msg`: the loop hits that
decode error right after the listed entries).  `queueTreeLoopF` is proved
equal to this below, and the per-claim reasoning is done here. -/
def foldEntries (repo : Repo) :
    SizeCache → List TreeEntry → Option String → Bool → Nat → TreeSize →
      Except GoErr TreeSize × SizeCache
  | cache, [], tail, ok, entryCount, size =>
    match tail with
    | some msg => (.error (.formatError msg), cache)
    | none =>
      if ok then (.ok (finalizeTree size entryCount), cache)
      else (.error .notYetKnown, cache)
  | cache, entry :: rest, tail, ok, entryCount, size =>
    let entryCount := (entryCount + 1) % U64
    if entry.Filemode &&& 0o170000 = 0o040000 then
      match lookupA cache.treeSizes entry.Oid with
      | some subsize =>
        foldEntries repo cache rest tail ok entryCount
          (if ok then size.addDescendent entry.Name subsize else size)
      | none =>
        foldEntries repo { cache with todo := entry.Oid :: cache.todo } rest tail false
          entryCount size
    else if entry.Filemode &&& 0o170000 = 0o160000 then
      foldEntries repo cache rest tail ok entryCount
        (if ok then size.addSubmodule entry.Name else size)
    else if entry.Filemode &&& 0o170000 = 0o120000 then
      foldEntries repo cache rest tail ok entryCount
        (if ok then size.addLink entry.Name else size)
    else
      match lookupA cache.blobSizes entry.Oid with
      | some blobSize =>
        foldEntries repo cache rest tail ok entryCount
          (if ok then size.addBlob entry.Name blobSize else size)
      | none =>
        match SizeCache.BlobSize repo cache entry.Oid with
        | (.error e, cache') => (.error e, cache')
        | (.ok blobSize, cache') =>
          foldEntries repo cache' rest tail ok entryCount (size.addBlob entry.Name blobSize)

instance {ε α : Type} [DecidableEq ε] [DecidableEq α] : DecidableEq (Except ε α) :=
  fun a b =>
    match a, b with
    | .ok x, .ok y => if h : x = y then .isTrue (by rw [h]) else .isFalse (by simp [h])
    | .ok _, .error _ => .isFalse (by simp)
    | .error _, .ok _ => .isFalse (by simp)
    | .error x, .error y => if h : x = y then .isTrue (by rw [h]) else .isFalse (by simp [h])

/-- The observable outcome of one pass of the `fill` loop body. -/
inductive StepRes where
  | finished (r : Except GoErr Unit) (c : SizeCache)
  | running (c : SizeCache)
deriving DecidableEq

/-- Lines 437-462: one iteration of the `fill` loop.  Empty stack: done.
Top already memoized: drop it.  Otherwise `queueTree` it: memoize-and-drop
on success, keep looping on `notYetKnown`, abort on any other error. -/
def SizeCache.fillStep (repo : Repo) (cache : SizeCache) : StepRes :=
  match cache.todo with
  | [] => .finished (.ok ()) cache
  | oid :: _ =>
    match lookupA cache.treeSizes oid with
    | some _ => .running { cache with todo := cache.todo.tail }
    | none =>
      match SizeCache.queueTree repo cache oid with
      | (.ok s, c') =>
        .running { c' with treeSizes := (oid, s) :: c'.treeSizes, todo := c'.todo.tail }
      | (.error .notYetKnown, c') => .running c'
      | (.error e, c') => .finished (.error e) c'

/-- Iterate `fillStep` up to `n` times; a `finished` result is absorbing. -/
def SizeCache.fillIter (repo : Repo) : Nat → SizeCache → StepRes
  | 0, cache => .running cache
  | n + 1, cache =>
    match SizeCache.fillStep repo cache with
    | .finished r c => .finished r c
    | .running c => SizeCache.fillIter repo n c

/-- The `fill` loop run with `n` iterations of fuel: `some` when it reached
its Go outcome (normal return or error) within `n` passes, `none` when the
fuel ran out first.  Claim C5 is that enough fuel always exists. -/
def SizeCache.fillFuel (repo : Repo) (n : Nat) (cache : SizeCache) :
    Option (Except GoErr Unit × SizeCache) :=
  match SizeCache.fillIter repo n cache with
  | .finished r c => some (r, c)
  | .running _ => none

/-- The result of the public `TreeSize` method: a record, a propagated
error, or the `panic` of line 431. -/
inductive TSResult where
  | ok (s : TreeSize)
  | err (e : GoErr)
  | panicked
deriving DecidableEq

/-- Lines 414-432: memoized recursive tree size.  On a miss, push the oid,
drive `fill`, and look the record up again; if it is still absent the Go
code panics. -/
def SizeCache.TreeSize (repo : Repo) (fuel : Nat) (cache : SizeCache) (oid : List Nat) :
    Option (TSResult × SizeCache) :=
  match lookupA cache.treeSizes oid with
  | some s => some (.ok s, cache)
  | none =>
    match SizeCache.fillFuel repo fuel { cache with todo := oid :: cache.todo } with
    | none => none
    | some (.error e, c') => some (.err e, c')
    | some (.ok _, c') =>
      match lookupA c'.treeSizes oid with
      | some s => some (.ok s, c')
      | none => some (.panicked, c')

/-- The `Size` interface value returned by `ObjectSize`. -/
inductive SizeResultV where
  | blob (n : Nat)
  | tree (s : TreeSize)
deriving DecidableEq

/-- The outcome of the public `ObjectSize` method; the `String` is the
returned `Type`. -/
inductive ObjOutcome where
  | ok (t : String) (s : SizeResultV)
  | err (t : String) (e : GoErr)
  | panicked
deriving DecidableEq

/-- Lines 375-396: look up the header and dispatch on the object type.
The blob branch stores the size in the blob table directly (line 384). -/
def SizeCache.ObjectSize (repo : Repo) (fuel : Nat) (cache : SizeCache) (oid : List Nat) :
    Option (ObjOutcome × SizeCache) :=
  match Repo.ReadHeader repo oid with
  | .error e => some (.err "missing" e, cache)
  | .ok (objectType, objectSize) =>
    if objectType = "blob" then
      some (.ok "blob" (.blob objectSize),
        { cache with blobSizes := (oid, objectSize) :: cache.blobSizes })
    else if objectType = "tree" then
      match SizeCache.TreeSize repo fuel cache oid with
      | none => none
      | some (.ok s, c') => some (.ok "tree" (.tree s), c')
      | some (.err e, c') => some (.err "tree" e, c')
      | some (.panicked, c') => some (.panicked, c')
    else if objectType = "commit" then
      some (.err "commit" (.unexpectedObjType oid objectType), cache)
    else if objectType = "tag" then
      some (.err "tag" (.unexpectedObjType oid objectType), cache)
    else some (.panicked, cache)

/-- One read from a store channel: a full line (delimiter included, as
`bufio.ReadString` returns it), given as its characters, or an I/O
failure. -/
inductive ChannelRead where
  | line (s : List Char)
  | ioFail
deriving DecidableEq

/-- Model of `strings.Split(header, " ")`: fields between single-space
separators, empty fields included; the empty string yields one empty
field. -/
def splitOnSpace : List Char → List (List Char)
  | [] => [[]]
  | c :: rest =>
    if c = ' ' then [] :: splitOnSpace rest
    else
      match splitOnSpace rest with
      | [] => [[c]]
      | w :: ws => (c :: w) :: ws

/-- Value of a string of decimal digits. -/
def decimalValue (s : List Char) : Nat :=
  s.foldl (fun acc c => acc * 10 + (c.toNat - 48)) 0

/-- Model of `strconv.ParseUint(s, 10, 0)` (bitSize 0 is the 64-bit uint):
fails on an empty string, a non-digit, or a value of 2^64 or more. -/
def parseDecimal64 (s : List Char) : Option Nat :=
  if s.isEmpty then none
  else if s.all (fun c => 48 ≤ c.toNat && c.toNat ≤ 57) then
    if decimalValue s < U64 then some (decimalValue s) else none
  else none

/-- Outcome of `ReadHeader` at the raw protocol level.  `panicked` is a Go
runtime panic (out-of-range index or slice bound), not an error value. -/
inductive HeaderResult where
  | ok (t : List Char) (size : Nat)
  | errNotFound
  | errChannel
  | errParse
  | panicked
deriving DecidableEq

/-- Lines 109-127 on the raw response line.  The Go code slices off the
last byte, splits on spaces, switches on `words[1]`, and parses
`words[2]`; the index expressions panic when the line has too few
fields, and the initial reslice panics on an empty line. -/
def ReadHeaderProto (input : ChannelRead) : HeaderResult :=
  match input with
  | .ioFail => .errChannel
  | .line s =>
    if s.isEmpty then .panicked
    else
      let words := splitOnSpace s.dropLast
      if words.length < 2 then .panicked
      else if words.getD 1 [] = "missing".toList then .errNotFound
      else if words.length < 3 then .panicked
      else
        match parseDecimal64 (words.getD 2 []) with
        | none => .errParse
        | some size => .ok (words.getD 1 []) size

/-- Outcome of `ReadTree` at the raw protocol level. -/
inductive TreeReadResult where
  | ok (data : List Nat)
  | errNotFound
  | errChannel
  | errParse
  | errType (t : List Char)
  | panicked
deriving DecidableEq

/-- Lines 133-165 on the raw response: parse the header line like
`ReadHeaderProto`, then in the tree case read `size + 1` bytes (the Go
`make([]byte, size+1)` computes that length in uint64) from `stream` and
strip the trailing delimiter.  A short stream is the read loop's error; a
zero-length buffer makes `data[:len(data)-1]` panic. -/
def ReadTreeProto (input : ChannelRead) (stream : List Nat) : TreeReadResult :=
  match input with
  | .ioFail => .errChannel
  | .line s =>
    if s.isEmpty then .panicked
    else
      let words := splitOnSpace s.dropLast
      if words.length < 2 then .panicked
      else if words.getD 1 [] = "missing".toList then .errNotFound
      else if words.getD 1 [] = "tree".toList then
        if words.length < 3 then .panicked
        else
          match parseDecimal64 (words.getD 2 []) with
          | none => .errParse
          | some size =>
            let n := (size + 1) % U64
            if stream.length < n then .errChannel
            else if n = 0 then .panicked
            else .ok ((stream.take n).dropLast)
      else .errType (words.getD 1 [])

/-- True for entries that `queueTree` classifies as subtrees. -/
def isSubtreeEntry (e : TreeEntry) : Bool := e.Filemode &&& 0o170000 == 0o040000

/-- True for entries that `queueTree` classifies as submodules. -/
def isSubmoduleEntry (e : TreeEntry) : Bool := e.Filemode &&& 0o170000 == 0o160000

/-- True for entries that `queueTree` classifies as symlinks. -/
def isSymlinkEntry (e : TreeEntry) : Bool := e.Filemode &&& 0o170000 == 0o120000

/-- True for entries that `queueTree` classifies as blobs. -/
def isBlobEntry (e : TreeEntry) : Bool :=
  ¬ isSubtreeEntry e && ¬ isSubmoduleEntry e && ¬ isSymlinkEntry e

/-- The record merged for a subtree entry (default irrelevant: used only
under hypotheses that the lookup succeeds). -/
def childRecord (ts : List (List Nat × TreeSize)) (e : TreeEntry) : TreeSize :=
  (lookupA ts e.Oid).getD {}

/-- The depth contribution of one direct entry to its parent. -/
def entryDepth (ts : List (List Nat × TreeSize)) (e : TreeEntry) : Nat :=
  if isSubtreeEntry e then (childRecord ts e).MaxDepth else 1

/-- The largest depth contribution of a list of direct entries. -/
def entriesMaxDepth (ts : List (List Nat × TreeSize)) : List TreeEntry → Nat
  | [] => 0
  | e :: rest => max (entryDepth ts e) (entriesMaxDepth ts rest)

/-- The `MaxTreeEntries` contribution of one direct entry. -/
def entryMTE (ts : List (List Nat × TreeSize)) (e : TreeEntry) : Nat :=
  if isSubtreeEntry e then (childRecord ts e).MaxTreeEntries else 0

/-- The largest `MaxTreeEntries` contribution of a list of direct entries. -/
def entriesMaxMTE (ts : List (List Nat × TreeSize)) : List TreeEntry → Nat
  | [] => 0
  | e :: rest => max (entryMTE ts e) (entriesMaxMTE ts rest)

/-- Mathematical (unclamped) sum of a field over the records merged for
the subtree entries of a list. -/
def sumSubField (f : TreeSize → Nat) (ts : List (List Nat × TreeSize)) :
    List TreeEntry → Nat
  | [] => 0
  | e :: rest =>
    (if isSubtreeEntry e then f (childRecord ts e) else 0) + sumSubField f ts rest

/-- Number of entries of a list matching a classification. -/
def countMatching (p : TreeEntry → Bool) : List TreeEntry → Nat
  | [] => 0
  | e :: rest => (if p e then 1 else 0) + countMatching p rest

/-- The subtree-entry oids that one pass of `queueTree`'s loop pushes onto
the stack, in entry order: children not yet memoized in `ts`. -/
def pushedList (ts : List (List Nat × TreeSize)) : List TreeEntry → List (List Nat)
  | [] => []
  | e :: rest =>
    if isSubtreeEntry e && (lookupA ts e.Oid).isNone then e.Oid :: pushedList ts rest
    else pushedList ts rest

/-- The subtree children named by a tree's payload, as decoded: the oids
`queueTree` can push for `oid`. -/
def subtreeChildren (repo : Repo) (oid : List Nat) : List (List Nat) :=
  match Repo.ReadTree repo oid with
  | .error _ => []
  | .ok data => ((parseEntries data).1.filter isSubtreeEntry).map TreeEntry.Oid

/-- `m'` preserves every binding visible in `m` (the memoization tables
only grow, and existing bindings are never shadowed). -/
def MapLE {α : Type} (m m' : List (List Nat × α)) : Prop :=
  ∀ k v, lookupA m k = some v → lookupA m' k = some v

/-! ### Basic arithmetic facts about `addCapped` -/

lemma U64_pos : 0 < U64 := by decide

lemma addCapped_of_lt {n1 n2 : Nat} (h : n1 + n2 < U64) : addCapped n1 n2 = n1 + n2 := by
  unfold addCapped
  rw [Nat.mod_eq_of_lt h, if_neg (by omega)]

lemma addCapped_of_ge {n1 n2 : Nat} (h1 : n1 < U64) (h2 : n2 < U64)
    (h : U64 ≤ n1 + n2) : addCapped n1 n2 = U64MAX := by
  unfold addCapped
  have hm : (n1 + n2) % U64 = n1 + n2 - U64 := by
    rw [Nat.mod_eq_sub_mod h, Nat.mod_eq_of_lt (by omega)]
  rw [hm, if_pos (by omega)]

lemma addCapped_sat {n1 n2 : Nat} (h1 : n1 < U64) (h2 : n2 < U64) :
    addCapped n1 n2 = min (n1 + n2) U64MAX := by
  rcases Nat.lt_or_ge (n1 + n2) U64 with h | h
  · rw [addCapped_of_lt h]
    have : U64MAX = U64 - 1 := rfl
    omega
  · rw [addCapped_of_ge h1 h2 h]
    have : U64MAX = U64 - 1 := rfl
    omega

lemma addCapped_ge_left {n1 n2 : Nat} (h1 : n1 < U64) (h2 : n2 < U64) :
    n1 ≤ addCapped n1 n2 := by
  rw [addCapped_sat h1 h2]
  have : U64MAX = U64 - 1 := rfl
  omega

lemma addCapped_lt {n1 n2 : Nat} (h1 : n1 < U64) (h2 : n2 < U64) :
    addCapped n1 n2 < U64 := by
  rw [addCapped_sat h1 h2]
  have : U64MAX = U64 - 1 := rfl
  have : 0 < U64 := U64_pos
  omega

/-! ### Record-operation equations -/

lemma recordDepth_eq (s : TreeSize) (d : Nat) :
    s.recordDepth d = { s with MaxDepth := max s.MaxDepth d } := by
  obtain ⟨a1, a2, a3, a4, a5, a6, a7, a8⟩ := s
  unfold TreeSize.recordDepth
  split_ifs with h <;> simp_all [TreeSize.mk.injEq] <;> omega

lemma recordPathLength_eq (s : TreeSize) (p : Nat) :
    s.recordPathLength p = { s with MaxPathLength := max s.MaxPathLength p } := by
  obtain ⟨a1, a2, a3, a4, a5, a6, a7, a8⟩ := s
  unfold TreeSize.recordPathLength
  split_ifs with h <;> simp_all [TreeSize.mk.injEq] <;> omega

lemma addDescendent_eq (s : TreeSize) (name : List Nat) (s2 : TreeSize) :
    s.addDescendent name s2 =
      { MaxDepth := max s.MaxDepth s2.MaxDepth,
        MaxPathLength :=
          if 0 < s2.MaxPathLength then
            max s.MaxPathLength (addCapped (name.length + 1) s2.MaxPathLength)
          else max s.MaxPathLength name.length,
        TreeCount := addCapped s.TreeCount s2.TreeCount,
        MaxTreeEntries := max s.MaxTreeEntries s2.MaxTreeEntries,
        BlobCount := addCapped s.BlobCount s2.BlobCount,
        BlobSize := addCapped s.BlobSize s2.BlobSize,
        LinkCount := addCapped s.LinkCount s2.LinkCount,
        SubmoduleCount := addCapped s.SubmoduleCount s2.SubmoduleCount } := by
  obtain ⟨a1, a2, a3, a4, a5, a6, a7, a8⟩ := s
  simp only [TreeSize.addDescendent, recordDepth_eq, recordPathLength_eq]
  split_ifs with h <;> simp_all [TreeSize.mk.injEq] <;> omega

lemma addBlob_eq (s : TreeSize) (name : List Nat) (size : Nat) :
    s.addBlob name size =
      { s with
        MaxDepth := max s.MaxDepth 1,
        MaxPathLength := max s.MaxPathLength name.length,
        BlobSize := addCapped s.BlobSize size,
        BlobCount := addCapped s.BlobCount 1 } := by
  obtain ⟨a1, a2, a3, a4, a5, a6, a7, a8⟩ := s
  simp only [TreeSize.addBlob, recordDepth_eq, recordPathLength_eq]

lemma addLink_eq (s : TreeSize) (name : List Nat) :
    s.addLink name =
      { s with
        MaxDepth := max s.MaxDepth 1,
        MaxPathLength := max s.MaxPathLength name.length,
        LinkCount := addCapped s.LinkCount 1 } := by
  obtain ⟨a1, a2, a3, a4, a5, a6, a7, a8⟩ := s
  simp only [TreeSize.addLink, recordDepth_eq, recordPathLength_eq]

lemma addSubmodule_eq (s : TreeSize) (name : List Nat) :
    s.addSubmodule name =
      { s with
        MaxDepth := max s.MaxDepth 1,
        MaxPathLength := max s.MaxPathLength name.length,
        SubmoduleCount := addCapped s.SubmoduleCount 1 } := by
  obtain ⟨a1, a2, a3, a4, a5, a6, a7, a8⟩ := s
  simp only [TreeSize.addSubmodule, recordDepth_eq, recordPathLength_eq]

lemma finalizeTree_eq (size : TreeSize) (entryCount : Nat) :
    finalizeTree size entryCount =
      { size with
        MaxDepth := addCapped size.MaxDepth 1,
        MaxTreeEntries := max size.MaxTreeEntries entryCount } := by
  obtain ⟨a1, a2, a3, a4, a5, a6, a7, a8⟩ := size
  simp only [finalizeTree]
  split_ifs with h <;> simp_all [TreeSize.mk.injEq] <;> omega

/-! ### Lookup and `MapLE` facts -/

lemma lookupA_cons_self {α : Type} (m : List (List Nat × α)) (k : List Nat) (v : α) :
    lookupA ((k, v) :: m) k = some v := by
  simp [lookupA]

lemma MapLE_refl {α : Type} (m : List (List Nat × α)) : MapLE m m := fun _ _ h => h

lemma MapLE_trans {α : Type} {m1 m2 m3 : List (List Nat × α)}
    (h12 : MapLE m1 m2) (h23 : MapLE m2 m3) : MapLE m1 m3 :=
  fun k v h => h23 k v (h12 k v h)

lemma MapLE_of_eq {α : Type} {m1 m2 : List (List Nat × α)} (h : m1 = m2) : MapLE m1 m2 := by
  subst h; exact MapLE_refl _

lemma MapLE_insert {α : Type} {m : List (List Nat × α)} {k : List Nat}
    (hk : lookupA m k = none) (v : α) : MapLE m ((k, v) :: m) := by
  intro k' v' h
  simp only [lookupA]
  split_ifs with he
  · subst he; rw [hk] at h; cases h
  · exact h

lemma MapLE_cons {α : Type} (m : List (List Nat × α)) (k : List Nat) (v : α) :
    ∀ k' v', lookupA m k' = some v' → lookupA ((k, v) :: m) k' ≠ none := by
  intro k' v' h
  simp only [lookupA]
  split_ifs with he <;> simp [h]

lemma MapLE_ne_none {α : Type} {m m' : List (List Nat × α)} (h : MapLE m m')
    {k : List Nat} (hk : lookupA m k ≠ none) : lookupA m' k ≠ none := by
  cases hv : lookupA m k with
  | none => exact absurd hv hk
  | some v => rw [h k v hv]; simp

/-! ### Tree-decoder facts -/

lemma splitAtByte_parts {b : Nat} :
    ∀ {l pre post : List Nat}, splitAtByte b l = some (pre, post) → l = pre ++ b :: post := by
  intro l
  induction l with
  | nil => intro pre post h; simp [splitAtByte] at h
  | cons x xs ih =>
    intro pre post h
    simp only [splitAtByte] at h
    split_ifs at h with he
    · subst he
      cases h
      rfl
    · cases hs : splitAtByte b xs with
      | none => rw [hs] at h; cases h
      | some pq =>
        obtain ⟨p, q⟩ := pq
        rw [hs] at h
        cases h
        simp [ih hs]

lemma NextEntry_rest_lt {data rest : List Nat} {e : TreeEntry}
    (h : NextEntry data = .ok (some (e, rest))) : rest.length < data.length := by
  unfold NextEntry at h
  split_ifs at h with hd
  · cases h
  · split at h
    next => cases h
    next modeBytes afterMode hsp =>
      split at h
      next => cases h
      next mode hoct =>
        split at h
        next => cases h
        next name afterName hnl =>
          by_cases hlen : afterName.length < 20
          · rw [if_pos hlen] at h
            cases h
          · rw [if_neg hlen] at h
            cases h
            have h1 := splitAtByte_parts hsp
            have h2 := splitAtByte_parts hnl
            have e1 : data.length = modeBytes.length + 1 + afterMode.length := by
              rw [h1]
              simp only [List.length_append, List.length_cons]
              omega
            have e2 : afterMode.length = name.length + 1 + afterName.length := by
              rw [h2]
              simp only [List.length_append, List.length_cons]
              omega
            simp only [List.length_drop]
            omega

lemma parseEntriesF_congr :
    ∀ f1 f2 data, data.length < f1 → data.length < f2 →
      parseEntriesF f1 data = parseEntriesF f2 data := by
  intro f1
  induction f1 with
  | zero => intro f2 data h1 _; omega
  | succ n ih =>
    intro f2 data h1 h2
    cases f2 with
    | zero => omega
    | succ m =>
      cases hne : NextEntry data with
      | error msg => simp only [parseEntriesF, hne]
      | ok o =>
        cases o with
        | none => simp only [parseEntriesF, hne]
        | some pr =>
          obtain ⟨e, rest⟩ := pr
          have hlt := NextEntry_rest_lt hne
          simp only [parseEntriesF, hne]
          rw [ih m rest (by omega) (by omega)]

lemma parseEntries_error {data : List Nat} {msg : String}
    (h : NextEntry data = .error msg) : parseEntries data = ([], some msg) := by
  unfold parseEntries
  simp [parseEntriesF, h]

lemma parseEntries_end {data : List Nat} (h : NextEntry data = .ok none) :
    parseEntries data = ([], none) := by
  unfold parseEntries
  simp [parseEntriesF, h]

lemma parseEntries_cons {data rest : List Nat} {e : TreeEntry}
    (h : NextEntry data = .ok (some (e, rest))) :
    parseEntries data = (e :: (parseEntries rest).1, (parseEntries rest).2) := by
  have hlt := NextEntry_rest_lt h
  have step : parseEntriesF (data.length + 1) data =
      (e :: (parseEntriesF data.length rest).1, (parseEntriesF data.length rest).2) := by
    simp only [parseEntriesF, h]
  unfold parseEntries
  rw [step, parseEntriesF_congr data.length (rest.length + 1) rest (by omega) (by omega)]

/-! ### The entry loop is the fold over the decoded entries -/

lemma queueTreeLoopF_eq_foldEntries (repo : Repo) :
    ∀ fuel data cache ok entryCount size, data.length < fuel →
      queueTreeLoopF repo fuel cache data ok entryCount size =
        foldEntries repo cache (parseEntries data).1 (parseEntries data).2 ok entryCount size := by
  intro fuel
  induction fuel with
  | zero => intro data _ _ _ _ h; omega
  | succ n ih =>
    intro data cache ok entryCount size hlen
    cases hne : NextEntry data with
    | error msg =>
      rw [parseEntries_error hne]
      simp only [queueTreeLoopF, foldEntries, hne]
    | ok o =>
      cases o with
      | none =>
        rw [parseEntries_end hne]
        simp only [queueTreeLoopF, foldEntries, hne]
      | some pr =>
        obtain ⟨entry, rest⟩ := pr
        have hlt := NextEntry_rest_lt hne
        rw [parseEntries_cons hne]
        simp only [queueTreeLoopF, foldEntries, hne]
        by_cases h1 : entry.Filemode &&& 0o170000 = 0o040000
        · simp only [if_pos h1]
          cases hlk : lookupA cache.treeSizes entry.Oid with
          | some subsize => exact ih rest _ _ _ _ (by omega)
          | none => exact ih rest _ _ _ _ (by omega)
        · simp only [if_neg h1]
          by_cases h2 : entry.Filemode &&& 0o170000 = 0o160000
          · simp only [if_pos h2]
            exact ih rest _ _ _ _ (by omega)
          · simp only [if_neg h2]
            by_cases h3 : entry.Filemode &&& 0o170000 = 0o120000
            · simp only [if_pos h3]
              exact ih rest _ _ _ _ (by omega)
            · simp only [if_neg h3]
              cases hbk : lookupA cache.blobSizes entry.Oid with
              | some blobSize => exact ih rest _ _ _ _ (by omega)
              | none =>
                cases hbs : SizeCache.BlobSize repo cache entry.Oid with
                | mk r cache' =>
                  cases r with
                  | error e => rfl
                  | ok blobSize => exact ih rest _ _ _ _ (by omega)

lemma queueTree_eq_foldEntries {repo : Repo} {cache : SizeCache} {oid data : List Nat}
    (h : Repo.ReadTree repo oid = .ok data) :
    SizeCache.queueTree repo cache oid =
      foldEntries repo cache (parseEntries data).1 (parseEntries data).2 true 0
        { TreeCount := 1 } := by
  unfold SizeCache.queueTree
  rw [h]
  exact queueTreeLoopF_eq_foldEntries repo _ data cache true 0 _ (by omega)

lemma queueTree_error {repo : Repo} {cache : SizeCache} {oid : List Nat} {e : GoErr}
    (h : Repo.ReadTree repo oid = .error e) :
    SizeCache.queueTree repo cache oid = (.error e, cache) := by
  unfold SizeCache.queueTree
  rw [h]

/-! ### Effects of `BlobSize` on the cache -/

lemma BlobSize_effects (repo : Repo) (cache : SizeCache) (oid : List Nat) :
    (SizeCache.BlobSize repo cache oid).2.treeSizes = cache.treeSizes ∧
    (SizeCache.BlobSize repo cache oid).2.todo = cache.todo ∧
    MapLE cache.blobSizes (SizeCache.BlobSize repo cache oid).2.blobSizes ∧
    (SizeCache.BlobSize repo cache oid).1 ≠ .error .notYetKnown := by
  cases hlk : lookupA cache.blobSizes oid with
  | some v =>
    simp only [SizeCache.BlobSize, hlk]
    exact ⟨by simp, by simp, MapLE_refl _, by simp⟩
  | none =>
    cases hh : repo.headerOf oid with
    | none =>
      simp only [SizeCache.BlobSize, Repo.ReadHeader, hlk, hh]
      exact ⟨by simp, by simp, MapLE_refl _, by simp⟩
    | some ts =>
      obtain ⟨t, n⟩ := ts
      simp only [SizeCache.BlobSize, Repo.ReadHeader, hlk, hh]
      by_cases ht : t = "blob"
      · rw [if_neg (by simp [ht])]
        exact ⟨by simp, by simp, MapLE_insert hlk n, by simp⟩
      · rw [if_pos (by simp [ht])]
        exact ⟨by simp, by simp, MapLE_refl _, by simp⟩

lemma BlobSize_ok_cached {repo : Repo} {cache c' : SizeCache} {oid : List Nat} {v : Nat}
    (h : SizeCache.BlobSize repo cache oid = (.ok v, c')) :
    lookupA c'.blobSizes oid = some v := by
  cases hlk : lookupA cache.blobSizes oid with
  | some w =>
    simp only [SizeCache.BlobSize, hlk] at h
    cases h
    exact hlk
  | none =>
    cases hh : repo.headerOf oid with
    | none =>
      simp only [SizeCache.BlobSize, Repo.ReadHeader, hlk, hh] at h
      cases h
    | some ts =>
      obtain ⟨t, n⟩ := ts
      simp only [SizeCache.BlobSize, Repo.ReadHeader, hlk, hh] at h
      by_cases ht : t = "blob"
      · rw [if_neg (by simp [ht])] at h
        cases h
        exact lookupA_cons_self _ _ _
      · rw [if_pos (by simp [ht])] at h
        cases h

lemma BlobSize_cached {repo : Repo} {cache : SizeCache} {oid : List Nat} {v : Nat}
    (h : lookupA cache.blobSizes oid = some v) :
    SizeCache.BlobSize repo cache oid = (.ok v, cache) := by
  unfold SizeCache.BlobSize
  rw [h]

lemma BlobSize_of_header {repo : Repo} {cache : SizeCache} {oid : List Nat} {n : Nat}
    (hlk : lookupA cache.blobSizes oid = none)
    (hh : repo.headerOf oid = some ("blob", n)) :
    SizeCache.BlobSize repo cache oid =
      (.ok n, { cache with blobSizes := (oid, n) :: cache.blobSizes }) := by
  simp only [SizeCache.BlobSize, Repo.ReadHeader, hlk, hh]
  rw [if_neg (by simp)]

/-! ### Effects of the entry fold on the cache -/

lemma foldEntries_effects (repo : Repo) :
    ∀ entries cache tail ok entryCount size,
      (foldEntries repo cache entries tail ok entryCount size).2.treeSizes = cache.treeSizes ∧
      MapLE cache.blobSizes (foldEntries repo cache entries tail ok entryCount size).2.blobSizes := by
  intro entries
  induction entries with
  | nil =>
    intro cache tail ok ec size
    cases tail with
    | some msg => exact ⟨rfl, MapLE_refl _⟩
    | none =>
      simp only [foldEntries]
      split_ifs <;> exact ⟨rfl, MapLE_refl _⟩
  | cons e rest ih =>
    intro cache tail ok ec size
    by_cases h1 : e.Filemode &&& 0o170000 = 0o040000
    · simp only [foldEntries, if_pos h1]
      cases hlk : lookupA cache.treeSizes e.Oid with
      | some subsize => exact ih cache tail ok _ _
      | none => exact ih { cache with todo := e.Oid :: cache.todo } tail false _ _
    · by_cases h2 : e.Filemode &&& 0o170000 = 0o160000
      · simp only [foldEntries, if_neg h1, if_pos h2]
        exact ih cache tail ok _ _
      · by_cases h3 : e.Filemode &&& 0o170000 = 0o120000
        · simp only [foldEntries, if_neg h1, if_neg h2, if_pos h3]
          exact ih cache tail ok _ _
        · simp only [foldEntries, if_neg h1, if_neg h2, if_neg h3]
          cases hbk : lookupA cache.blobSizes e.Oid with
          | some blobSize => exact ih cache tail ok _ _
          | none =>
            cases hbs : SizeCache.BlobSize repo cache e.Oid with
            | mk r c' =>
              cases r with
              | error err =>
                have he := BlobSize_effects repo cache e.Oid
                rw [hbs] at he
                exact ⟨he.1, he.2.2.1⟩
              | ok blobSize =>
                have he := BlobSize_effects repo cache e.Oid
                rw [hbs] at he
                have hr := ih c' tail ok ((ec + 1) % U64) (size.addBlob e.Name blobSize)
                exact ⟨hr.1.trans he.1, MapLE_trans he.2.2.1 hr.2⟩

lemma isSubtreeEntry_iff {e : TreeEntry} :
    isSubtreeEntry e = true ↔ e.Filemode &&& 0o170000 = 0o040000 := by
  simp [isSubtreeEntry]

lemma isSubmoduleEntry_iff {e : TreeEntry} :
    isSubmoduleEntry e = true ↔ e.Filemode &&& 0o170000 = 0o160000 := by
  simp [isSubmoduleEntry]

lemma isSymlinkEntry_iff {e : TreeEntry} :
    isSymlinkEntry e = true ↔ e.Filemode &&& 0o170000 = 0o120000 := by
  simp [isSymlinkEntry]

lemma isBlobEntry_iff {e : TreeEntry} :
    isBlobEntry e = true ↔
      ¬ e.Filemode &&& 0o170000 = 0o040000 ∧ ¬ e.Filemode &&& 0o170000 = 0o160000 ∧
        ¬ e.Filemode &&& 0o170000 = 0o120000 := by
  simp [isBlobEntry, isSubtreeEntry, isSubmoduleEntry, isSymlinkEntry, and_assoc]

lemma lookupA_cons_ne_none {α : Type} {m : List (List Nat × α)} {key : List Nat}
    (h : lookupA m key ≠ none) (k : List Nat) (v : α) :
    lookupA ((k, v) :: m) key ≠ none := by
  simp only [lookupA]
  split_ifs with he <;> simp [h]

lemma mem_pushedList {ts : List (List Nat × TreeSize)} :
    ∀ {entries : List TreeEntry} {e : TreeEntry}, e ∈ entries → isSubtreeEntry e = true →
      lookupA ts e.Oid = none → e.Oid ∈ pushedList ts entries := by
  intro entries
  induction entries with
  | nil => intro e he; cases he
  | cons x rest ih =>
    intro e he hs hn
    rcases List.mem_cons.mp he with rfl | hmem
    · simp only [pushedList, hs, hn, Option.isNone_none, Bool.and_self, if_pos]
      exact List.mem_cons_self _ _
    · simp only [pushedList]
      split_ifs with hx
      · exact List.mem_cons_of_mem _ (ih hmem hs hn)
      · exact ih hmem hs hn

lemma pushedList_subset {ts : List (List Nat × TreeSize)} :
    ∀ {entries : List TreeEntry} {o : List Nat}, o ∈ pushedList ts entries →
      o ∈ (entries.filter isSubtreeEntry).map TreeEntry.Oid := by
  intro entries
  induction entries with
  | nil => intro o ho; cases ho
  | cons x rest ih =>
    intro o ho
    simp only [pushedList] at ho
    split_ifs at ho with hx
    · have hsub : isSubtreeEntry x = true := by
        have hx' : isSubtreeEntry x = true ∧ (lookupA ts x.Oid).isNone = true := by
          simpa using hx
        exact hx'.1
      rcases List.mem_cons.mp ho with rfl | hmem
      · simp [List.filter_cons, hsub]
      · have := ih hmem
        simp only [List.filter_cons, hsub, if_pos, List.map_cons]
        exact List.mem_cons_of_mem _ this
    · have := ih ho
      by_cases hsub : isSubtreeEntry x = true
      · simp only [List.filter_cons, hsub, if_pos, List.map_cons]
        exact List.mem_cons_of_mem _ this
      · simp only [List.filter_cons, Bool.not_eq_true] at hsub ⊢
        rw [hsub]
        exact this

lemma foldEntries_not_ok (repo : Repo) :
    ∀ entries cache tail entryCount size s c',
      foldEntries repo cache entries tail false entryCount size ≠ (.ok s, c') := by
  intro entries
  induction entries with
  | nil =>
    intro cache tail ec size s c'
    cases tail <;> simp [foldEntries]
  | cons e rest ih =>
    intro cache tail ec size s c'
    by_cases h1 : e.Filemode &&& 0o170000 = 0o040000
    · simp only [foldEntries, if_pos h1]
      cases hlk : lookupA cache.treeSizes e.Oid with
      | some subsize => exact ih cache tail _ _ s c'
      | none => exact ih _ tail _ _ s c'
    · by_cases h2 : e.Filemode &&& 0o170000 = 0o160000
      · simp only [foldEntries, if_neg h1, if_pos h2]
        exact ih cache tail _ _ s c'
      · by_cases h3 : e.Filemode &&& 0o170000 = 0o120000
        · simp only [foldEntries, if_neg h1, if_neg h2, if_pos h3]
          exact ih cache tail _ _ s c'
        · simp only [foldEntries, if_neg h1, if_neg h2, if_neg h3]
          cases hbk : lookupA cache.blobSizes e.Oid with
          | some blobSize => exact ih cache tail _ _ s c'
          | none =>
            cases hbs : SizeCache.BlobSize repo cache e.Oid with
            | mk r c1 =>
              cases r with
              | error err => simp
              | ok blobSize => exact ih c1 tail _ _ s c'

lemma foldEntries_ok_todo (repo : Repo) :
    ∀ entries cache tail entryCount size s c',
      foldEntries repo cache entries tail true entryCount size = (.ok s, c') →
      c'.todo = cache.todo := by
  intro entries
  induction entries with
  | nil =>
    intro cache tail ec size s c' h
    cases tail with
    | some msg => cases h
    | none =>
      simp only [foldEntries, if_pos] at h
      cases h
      rfl
  | cons e rest ih =>
    intro cache tail ec size s c' h
    by_cases h1 : e.Filemode &&& 0o170000 = 0o040000
    · simp only [foldEntries, if_pos h1] at h
      cases hlk : lookupA cache.treeSizes e.Oid with
      | some subsize =>
        rw [hlk] at h
        exact ih cache tail _ _ s c' h
      | none =>
        rw [hlk] at h
        exact absurd h (foldEntries_not_ok repo rest _ tail _ _ s c')
    · by_cases h2 : e.Filemode &&& 0o170000 = 0o160000
      · simp only [foldEntries, if_neg h1, if_pos h2] at h
        exact ih cache tail _ _ s c' h
      · by_cases h3 : e.Filemode &&& 0o170000 = 0o120000
        · simp only [foldEntries, if_neg h1, if_neg h2, if_pos h3] at h
          exact ih cache tail _ _ s c' h
        · simp only [foldEntries, if_neg h1, if_neg h2, if_neg h3] at h
          cases hbk : lookupA cache.blobSizes e.Oid with
          | some blobSize =>
            rw [hbk] at h
            exact ih cache tail _ _ s c' h
          | none =>
            rw [hbk] at h
            cases hbs : SizeCache.BlobSize repo cache e.Oid with
            | mk r c1 =>
              rw [hbs] at h
              cases r with
              | error err => cases h
              | ok blobSize =>
                have he := BlobSize_effects repo cache e.Oid
                rw [hbs] at he
                rw [ih c1 tail _ _ s c' h]
                exact he.2.1

lemma foldEntries_nyk (repo : Repo) :
    ∀ entries cache tail ok entryCount size c',
      foldEntries repo cache entries tail ok entryCount size = (.error .notYetKnown, c') →
      tail = none ∧
      c'.todo = (pushedList cache.treeSizes entries).reverse ++ cache.todo ∧
      (∀ e ∈ entries, isBlobEntry e = true → lookupA c'.blobSizes e.Oid ≠ none) := by
  intro entries
  induction entries with
  | nil =>
    intro cache tail ok ec size c' h
    cases tail with
    | some msg =>
      simp only [foldEntries] at h
      cases h
    | none =>
      simp only [foldEntries] at h
      split_ifs at h with hok <;> cases h
      · exact ⟨rfl, by simp [pushedList], by simp⟩
  | cons e rest ih =>
    intro cache tail ok ec size c' h
    by_cases h1 : e.Filemode &&& 0o170000 = 0o040000
    · have hsub : isSubtreeEntry e = true := isSubtreeEntry_iff.mpr h1
      have hnotblob : ¬ isBlobEntry e = true := by
        simp [isBlobEntry_iff, h1]
      simp only [foldEntries, if_pos h1] at h
      cases hlk : lookupA cache.treeSizes e.Oid with
      | some subsize =>
        rw [hlk] at h
        obtain ⟨ht, htodo, hblob⟩ := ih cache tail ok _ _ c' h
        refine ⟨ht, ?_, ?_⟩
        · rw [htodo]
          simp [pushedList, hsub, hlk]
        · intro e' he' hb
          rcases List.mem_cons.mp he' with rfl | hmem
          · exact absurd hb hnotblob
          · exact hblob e' hmem hb
      | none =>
        rw [hlk] at h
        obtain ⟨ht, htodo, hblob⟩ := ih _ tail false _ _ c' h
        refine ⟨ht, ?_, ?_⟩
        · rw [htodo]
          simp only [pushedList, hsub, hlk, Option.isNone_none, Bool.and_self, if_pos,
            List.reverse_cons, List.append_assoc, List.cons_append, List.nil_append]
        · intro e' he' hb
          rcases List.mem_cons.mp he' with rfl | hmem
          · exact absurd hb hnotblob
          · exact hblob e' hmem hb
    · by_cases h2 : e.Filemode &&& 0o170000 = 0o160000
      · have hnotblob : ¬ isBlobEntry e = true := by
          simp [isBlobEntry_iff, h2]
        have hnotsub : ¬ isSubtreeEntry e = true := by
          simp [isSubtreeEntry_iff, h1]
        simp only [foldEntries, if_neg h1, if_pos h2] at h
        obtain ⟨ht, htodo, hblob⟩ := ih cache tail ok _ _ c' h
        refine ⟨ht, ?_, ?_⟩
        · rw [htodo]
          simp [pushedList, hnotsub]
        · intro e' he' hb
          rcases List.mem_cons.mp he' with rfl | hmem
          · exact absurd hb hnotblob
          · exact hblob e' hmem hb
      · by_cases h3 : e.Filemode &&& 0o170000 = 0o120000
        · have hnotblob : ¬ isBlobEntry e = true := by
            simp [isBlobEntry_iff, h3]
          have hnotsub : ¬ isSubtreeEntry e = true := by
            simp [isSubtreeEntry_iff, h1]
          simp only [foldEntries, if_neg h1, if_neg h2, if_pos h3] at h
          obtain ⟨ht, htodo, hblob⟩ := ih cache tail ok _ _ c' h
          refine ⟨ht, ?_, ?_⟩
          · rw [htodo]
            simp [pushedList, hnotsub]
          · intro e' he' hb
            rcases List.mem_cons.mp he' with rfl | hmem
            · exact absurd hb hnotblob
            · exact hblob e' hmem hb
        · have hnotsub : ¬ isSubtreeEntry e = true := by
            simp [isSubtreeEntry_iff, h1]
          simp only [foldEntries, if_neg h1, if_neg h2, if_neg h3] at h
          cases hbk : lookupA cache.blobSizes e.Oid with
          | some blobSize =>
            simp only [hbk] at h
            have h' : foldEntries repo cache rest tail ok ((ec + 1) % U64)
                (if ok then size.addBlob e.Name blobSize else size) =
                  (.error .notYetKnown, c') := h
            obtain ⟨ht, htodo, hblob⟩ := ih cache tail ok _ _ c' h'
            have heff := foldEntries_effects repo rest cache tail ok ((ec + 1) % U64)
              (if ok then size.addBlob e.Name blobSize else size)
            rw [h'] at heff
            refine ⟨ht, ?_, ?_⟩
            · rw [htodo]
              simp [pushedList, hnotsub]
            · intro e' he' hb
              rcases List.mem_cons.mp he' with rfl | hmem
              · exact MapLE_ne_none heff.2 (by rw [hbk]; simp)
              · exact hblob e' hmem hb
          | none =>
            simp only [hbk] at h
            cases hbs : SizeCache.BlobSize repo cache e.Oid with
            | mk r c1 =>
              simp only [hbs] at h
              cases r with
              | error err =>
                cases h
                have he := BlobSize_effects repo cache e.Oid
                rw [hbs] at he
                exact absurd rfl he.2.2.2
              | ok blobSize =>
                have he := BlobSize_effects repo cache e.Oid
                rw [hbs] at he
                have hcached := BlobSize_ok_cached hbs
                have h' : foldEntries repo c1 rest tail ok ((ec + 1) % U64)
                    (size.addBlob e.Name blobSize) = (.error .notYetKnown, c') := h
                obtain ⟨ht, htodo, hblob⟩ := ih c1 tail ok _ _ c' h'
                have heff := foldEntries_effects repo rest c1 tail ok ((ec + 1) % U64)
                  (size.addBlob e.Name blobSize)
                rw [h'] at heff
                refine ⟨ht, ?_, ?_⟩
                · rw [htodo, he.2.1]
                  have hts : c1.treeSizes = cache.treeSizes := he.1
                  rw [hts]
                  simp [pushedList, hnotsub]
                · intro e' he' hb
                  rcases List.mem_cons.mp he' with rfl | hmem
                  · exact MapLE_ne_none heff.2 (by rw [hcached]; simp)
                  · exact hblob e' hmem hb

lemma foldEntries_ok_of_conditions (repo : Repo) :
    ∀ entries cache entryCount size,
      (∀ e ∈ entries, isSubtreeEntry e = true → lookupA cache.treeSizes e.Oid ≠ none) →
      (∀ e ∈ entries, isBlobEntry e = true →
        lookupA cache.blobSizes e.Oid ≠ none ∨ ∃ n, repo.headerOf e.Oid = some ("blob", n)) →
      ∃ s c', foldEntries repo cache entries none true entryCount size = (.ok s, c') := by
  intro entries
  induction entries with
  | nil =>
    intro cache ec size _ _
    exact ⟨finalizeTree size ec, cache, by simp [foldEntries]⟩
  | cons e rest ih =>
    intro cache ec size hsub hblob
    by_cases h1 : e.Filemode &&& 0o170000 = 0o040000
    · cases hlk : lookupA cache.treeSizes e.Oid with
      | none =>
        exact absurd hlk
          (hsub e (List.mem_cons_self _ _) (isSubtreeEntry_iff.mpr h1))
      | some subsize =>
        obtain ⟨s, c', hr⟩ := ih cache ((ec + 1) % U64) (size.addDescendent e.Name subsize)
          (fun e' he' => hsub e' (List.mem_cons_of_mem _ he'))
          (fun e' he' => hblob e' (List.mem_cons_of_mem _ he'))
        refine ⟨s, c', ?_⟩
        simp only [foldEntries, if_pos h1, hlk, if_pos]
        exact hr
    · by_cases h2 : e.Filemode &&& 0o170000 = 0o160000
      · obtain ⟨s, c', hr⟩ := ih cache ((ec + 1) % U64) (size.addSubmodule e.Name)
          (fun e' he' => hsub e' (List.mem_cons_of_mem _ he'))
          (fun e' he' => hblob e' (List.mem_cons_of_mem _ he'))
        refine ⟨s, c', ?_⟩
        simp only [foldEntries, if_neg h1, if_pos h2, if_pos]
        exact hr
      · by_cases h3 : e.Filemode &&& 0o170000 = 0o120000
        · obtain ⟨s, c', hr⟩ := ih cache ((ec + 1) % U64) (size.addLink e.Name)
            (fun e' he' => hsub e' (List.mem_cons_of_mem _ he'))
            (fun e' he' => hblob e' (List.mem_cons_of_mem _ he'))
          refine ⟨s, c', ?_⟩
          simp only [foldEntries, if_neg h1, if_neg h2, if_pos h3, if_pos]
          exact hr
        · have hb : isBlobEntry e = true := isBlobEntry_iff.mpr ⟨h1, h2, h3⟩
          cases hbk : lookupA cache.blobSizes e.Oid with
          | some blobSize =>
            obtain ⟨s, c', hr⟩ := ih cache ((ec + 1) % U64) (size.addBlob e.Name blobSize)
              (fun e' he' => hsub e' (List.mem_cons_of_mem _ he'))
              (fun e' he' => hblob e' (List.mem_cons_of_mem _ he'))
            refine ⟨s, c', ?_⟩
            simp only [foldEntries, if_neg h1, if_neg h2, if_neg h3, hbk, if_pos]
            exact hr
          | none =>
            rcases hblob e (List.mem_cons_self _ _) hb with hc | ⟨n, hh⟩
            · exact absurd hbk hc
            · have hcall := BlobSize_of_header hbk hh
              obtain ⟨s, c', hr⟩ := ih { cache with blobSizes := (e.Oid, n) :: cache.blobSizes }
                ((ec + 1) % U64) (size.addBlob e.Name n)
                (fun e' he' => hsub e' (List.mem_cons_of_mem _ he'))
                (fun e' he' hb' => by
                  rcases hblob e' (List.mem_cons_of_mem _ he') hb' with hc | hhdr
                  · exact Or.inl (lookupA_cons_ne_none hc _ _)
                  · exact Or.inr hhdr)
              refine ⟨s, c', ?_⟩
              simp only [foldEntries, if_neg h1, if_neg h2, if_neg h3, hbk, hcall]
              exact hr

lemma mod_step {ec k : Nat} : ((ec + 1) % U64 + k) % U64 = (ec + (k + 1)) % U64 := by
  rw [Nat.mod_add_mod]
  congr 1
  omega

lemma foldEntries_ok_depth (repo : Repo) :
    ∀ entries cache entryCount size s c', entryCount < U64 →
      foldEntries repo cache entries none true entryCount size = (.ok s, c') →
      s.MaxDepth = addCapped (max size.MaxDepth (entriesMaxDepth cache.treeSizes entries)) 1 ∧
      s.MaxTreeEntries =
        max (max size.MaxTreeEntries (entriesMaxMTE cache.treeSizes entries))
          ((entryCount + entries.length) % U64) := by
  intro entries
  induction entries with
  | nil =>
    intro cache ec size s c' hec h
    have h' : (Except.ok (finalizeTree size ec), cache) = ((.ok s : Except GoErr TreeSize), c') := h
    cases h'
    rw [finalizeTree_eq]
    constructor
    · simp [entriesMaxDepth]
    · simp only [entriesMaxMTE, List.length_nil, Nat.add_zero, Nat.mod_eq_of_lt hec]
      omega
  | cons e rest ih =>
    intro cache ec size s c' hec h
    have hec' : (ec + 1) % U64 < U64 := Nat.mod_lt _ U64_pos
    by_cases h1 : e.Filemode &&& 0o170000 = 0o040000
    · have hsub : isSubtreeEntry e = true := isSubtreeEntry_iff.mpr h1
      simp only [foldEntries, if_pos h1] at h
      cases hlk : lookupA cache.treeSizes e.Oid with
      | none =>
        rw [hlk] at h
        exact absurd h (foldEntries_not_ok repo rest _ none _ _ s c')
      | some subsize =>
        simp only [hlk] at h
        have h' : foldEntries repo cache rest none true ((ec + 1) % U64)
            (size.addDescendent e.Name subsize) = (.ok s, c') := h
        obtain ⟨hd, hm⟩ := ih cache _ _ s c' hec' h'
        rw [addDescendent_eq] at hd hm
        have hcr : childRecord cache.treeSizes e = subsize := by simp [childRecord, hlk]
        constructor
        · rw [hd]
          congr 1
          simp [entriesMaxDepth, entryDepth, hsub, hcr] <;> omega
        · rw [hm, mod_step]
          simp [entriesMaxMTE, entryMTE, hsub, hcr] <;> omega
    · have hnotsub : ¬ isSubtreeEntry e = true := by simp [isSubtreeEntry_iff, h1]
      by_cases h2 : e.Filemode &&& 0o170000 = 0o160000
      · simp only [foldEntries, if_neg h1, if_pos h2] at h
        have h' : foldEntries repo cache rest none true ((ec + 1) % U64)
            (size.addSubmodule e.Name) = (.ok s, c') := h
        obtain ⟨hd, hm⟩ := ih cache _ _ s c' hec' h'
        rw [addSubmodule_eq] at hd hm
        constructor
        · rw [hd]
          congr 1
          simp [entriesMaxDepth, entryDepth, hnotsub] <;> omega
        · rw [hm, mod_step]
          simp [entriesMaxMTE, entryMTE, hnotsub] <;> omega
      · by_cases h3 : e.Filemode &&& 0o170000 = 0o120000
        · simp only [foldEntries, if_neg h1, if_neg h2, if_pos h3] at h
          have h' : foldEntries repo cache rest none true ((ec + 1) % U64)
              (size.addLink e.Name) = (.ok s, c') := h
          obtain ⟨hd, hm⟩ := ih cache _ _ s c' hec' h'
          rw [addLink_eq] at hd hm
          constructor
          · rw [hd]
            congr 1
            simp [entriesMaxDepth, entryDepth, hnotsub] <;> omega
          · rw [hm, mod_step]
            simp [entriesMaxMTE, entryMTE, hnotsub] <;> omega
        · simp only [foldEntries, if_neg h1, if_neg h2, if_neg h3] at h
          cases hbk : lookupA cache.blobSizes e.Oid with
          | some blobSize =>
            simp only [hbk] at h
            have h' : foldEntries repo cache rest none true ((ec + 1) % U64)
                (size.addBlob e.Name blobSize) = (.ok s, c') := h
            obtain ⟨hd, hm⟩ := ih cache _ _ s c' hec' h'
            rw [addBlob_eq] at hd hm
            constructor
            · rw [hd]
              congr 1
              simp [entriesMaxDepth, entryDepth, hnotsub] <;> omega
            · rw [hm, mod_step]
              simp [entriesMaxMTE, entryMTE, hnotsub] <;> omega
          | none =>
            simp only [hbk] at h
            cases hbs : SizeCache.BlobSize repo cache e.Oid with
            | mk r c1 =>
              simp only [hbs] at h
              cases r with
              | error err => cases h
              | ok blobSize =>
                have he := BlobSize_effects repo cache e.Oid
                rw [hbs] at he
                have h' : foldEntries repo c1 rest none true ((ec + 1) % U64)
                    (size.addBlob e.Name blobSize) = (.ok s, c') := h
                obtain ⟨hd, hm⟩ := ih c1 _ _ s c' hec' h'
                rw [addBlob_eq] at hd hm
                have hts : c1.treeSizes = cache.treeSizes := he.1
                rw [hts] at hd hm
                constructor
                · rw [hd]
                  congr 1
                  simp [entriesMaxDepth, entryDepth, hnotsub] <;> omega
                · rw [hm, mod_step]
                  simp [entriesMaxMTE, entryMTE, hnotsub] <;> omega

lemma foldEntries_ok_counts (repo : Repo) :
    ∀ entries cache entryCount size s c',
      foldEntries repo cache entries none true entryCount size = (.ok s, c') →
      (size.TreeCount + sumSubField TreeSize.TreeCount cache.treeSizes entries < U64 →
        s.TreeCount = size.TreeCount + sumSubField TreeSize.TreeCount cache.treeSizes entries) ∧
      (size.BlobCount + (sumSubField TreeSize.BlobCount cache.treeSizes entries +
          countMatching isBlobEntry entries) < U64 →
        s.BlobCount = size.BlobCount + (sumSubField TreeSize.BlobCount cache.treeSizes entries +
          countMatching isBlobEntry entries)) ∧
      (size.LinkCount + (sumSubField TreeSize.LinkCount cache.treeSizes entries +
          countMatching isSymlinkEntry entries) < U64 →
        s.LinkCount = size.LinkCount + (sumSubField TreeSize.LinkCount cache.treeSizes entries +
          countMatching isSymlinkEntry entries)) ∧
      (size.SubmoduleCount + (sumSubField TreeSize.SubmoduleCount cache.treeSizes entries +
          countMatching isSubmoduleEntry entries) < U64 →
        s.SubmoduleCount = size.SubmoduleCount +
          (sumSubField TreeSize.SubmoduleCount cache.treeSizes entries +
            countMatching isSubmoduleEntry entries)) := by
  intro entries
  induction entries with
  | nil =>
    intro cache ec size s c' h
    have h' : (Except.ok (finalizeTree size ec), cache) = ((.ok s : Except GoErr TreeSize), c') := h
    cases h'
    rw [finalizeTree_eq]
    refine ⟨?_, ?_, ?_, ?_⟩ <;> (intro hb; simp [sumSubField, countMatching])
  | cons e rest ih =>
    intro cache ec size s c' h
    by_cases h1 : e.Filemode &&& 0o170000 = 0o040000
    · have hsub : isSubtreeEntry e = true := isSubtreeEntry_iff.mpr h1
      have hnb : ¬ isBlobEntry e = true := by simp [isBlobEntry_iff, h1]
      have hnl : ¬ isSymlinkEntry e = true := by simp [isSymlinkEntry_iff, h1]
      have hns : ¬ isSubmoduleEntry e = true := by simp [isSubmoduleEntry_iff, h1]
      simp only [foldEntries, if_pos h1] at h
      cases hlk : lookupA cache.treeSizes e.Oid with
      | none =>
        rw [hlk] at h
        exact absurd h (foldEntries_not_ok repo rest _ none _ _ s c')
      | some subsize =>
        simp only [hlk] at h
        have h' : foldEntries repo cache rest none true ((ec + 1) % U64)
            (size.addDescendent e.Name subsize) = (.ok s, c') := h
        have hcr : childRecord cache.treeSizes e = subsize := by simp [childRecord, hlk]
        obtain ⟨iTC, iBC, iLC, iSC⟩ := ih cache _ _ s c' h'
        simp only [addDescendent_eq] at iTC iBC iLC iSC
        refine ⟨?_, ?_, ?_, ?_⟩
        · intro hb
          have hcons : sumSubField TreeSize.TreeCount cache.treeSizes (e :: rest) =
              subsize.TreeCount + sumSubField TreeSize.TreeCount cache.treeSizes rest := by
            simp [sumSubField, hsub, hcr]
          rw [hcons] at hb ⊢
          have hxy : size.TreeCount + subsize.TreeCount < U64 := by omega
          simp only [addCapped_of_lt hxy] at iTC
          have := iTC (by omega)
          omega
        · intro hb
          have hcons : sumSubField TreeSize.BlobCount cache.treeSizes (e :: rest) =
              subsize.BlobCount + sumSubField TreeSize.BlobCount cache.treeSizes rest := by
            simp [sumSubField, hsub, hcr]
          have hcnt : countMatching isBlobEntry (e :: rest) = countMatching isBlobEntry rest := by
            simp [countMatching, hnb]
          rw [hcons, hcnt] at hb ⊢
          have hxy : size.BlobCount + subsize.BlobCount < U64 := by omega
          simp only [addCapped_of_lt hxy] at iBC
          have := iBC (by omega)
          omega
        · intro hb
          have hcons : sumSubField TreeSize.LinkCount cache.treeSizes (e :: rest) =
              subsize.LinkCount + sumSubField TreeSize.LinkCount cache.treeSizes rest := by
            simp [sumSubField, hsub, hcr]
          have hcnt : countMatching isSymlinkEntry (e :: rest) =
              countMatching isSymlinkEntry rest := by
            simp [countMatching, hnl]
          rw [hcons, hcnt] at hb ⊢
          have hxy : size.LinkCount + subsize.LinkCount < U64 := by omega
          simp only [addCapped_of_lt hxy] at iLC
          have := iLC (by omega)
          omega
        · intro hb
          have hcons : sumSubField TreeSize.SubmoduleCount cache.treeSizes (e :: rest) =
              subsize.SubmoduleCount + sumSubField TreeSize.SubmoduleCount cache.treeSizes rest := by
            simp [sumSubField, hsub, hcr]
          have hcnt : countMatching isSubmoduleEntry (e :: rest) =
              countMatching isSubmoduleEntry rest := by
            simp [countMatching, hns]
          rw [hcons, hcnt] at hb ⊢
          have hxy : size.SubmoduleCount + subsize.SubmoduleCount < U64 := by omega
          simp only [addCapped_of_lt hxy] at iSC
          have := iSC (by omega)
          omega
    · have hnotsub : ¬ isSubtreeEntry e = true := by simp [isSubtreeEntry_iff, h1]
      by_cases h2 : e.Filemode &&& 0o170000 = 0o160000
      · have hsm : isSubmoduleEntry e = true := isSubmoduleEntry_iff.mpr h2
        have hnb : ¬ isBlobEntry e = true := by simp [isBlobEntry_iff, h2]
        have hnl : ¬ isSymlinkEntry e = true := by simp [isSymlinkEntry_iff, h2]
        simp only [foldEntries, if_neg h1, if_pos h2] at h
        have h' : foldEntries repo cache rest none true ((ec + 1) % U64)
            (size.addSubmodule e.Name) = (.ok s, c') := h
        obtain ⟨iTC, iBC, iLC, iSC⟩ := ih cache _ _ s c' h'
        simp only [addSubmodule_eq] at iTC iBC iLC iSC
        refine ⟨?_, ?_, ?_, ?_⟩
        · intro hb
          rw [show sumSubField TreeSize.TreeCount cache.treeSizes (e :: rest) =
              sumSubField TreeSize.TreeCount cache.treeSizes rest by
            simp [sumSubField, hnotsub]] at hb ⊢
          have := iTC (by omega)
          omega
        · intro hb
          rw [show sumSubField TreeSize.BlobCount cache.treeSizes (e :: rest) =
              sumSubField TreeSize.BlobCount cache.treeSizes rest by
            simp [sumSubField, hnotsub]] at hb ⊢
          rw [show countMatching isBlobEntry (e :: rest) = countMatching isBlobEntry rest by
            simp [countMatching, hnb]] at hb ⊢
          have := iBC (by omega)
          omega
        · intro hb
          rw [show sumSubField TreeSize.LinkCount cache.treeSizes (e :: rest) =
              sumSubField TreeSize.LinkCount cache.treeSizes rest by
            simp [sumSubField, hnotsub]] at hb ⊢
          rw [show countMatching isSymlinkEntry (e :: rest) = countMatching isSymlinkEntry rest by
            simp [countMatching, hnl]] at hb ⊢
          have := iLC (by omega)
          omega
        · intro hb
          rw [show sumSubField TreeSize.SubmoduleCount cache.treeSizes (e :: rest) =
              sumSubField TreeSize.SubmoduleCount cache.treeSizes rest by
            simp [sumSubField, hnotsub]] at hb ⊢
          rw [show countMatching isSubmoduleEntry (e :: rest) =
              1 + countMatching isSubmoduleEntry rest by
            simp [countMatching, hsm]] at hb ⊢
          have hxy : size.SubmoduleCount + 1 < U64 := by omega
          simp only [addCapped_of_lt hxy] at iSC
          have := iSC (by omega)
          omega
      · by_cases h3 : e.Filemode &&& 0o170000 = 0o120000
        · have hsl : isSymlinkEntry e = true := isSymlinkEntry_iff.mpr h3
          have hnb : ¬ isBlobEntry e = true := by simp [isBlobEntry_iff, h3]
          have hns : ¬ isSubmoduleEntry e = true := by simp [isSubmoduleEntry_iff, h3]
          simp only [foldEntries, if_neg h1, if_neg h2, if_pos h3] at h
          have h' : foldEntries repo cache rest none true ((ec + 1) % U64)
              (size.addLink e.Name) = (.ok s, c') := h
          obtain ⟨iTC, iBC, iLC, iSC⟩ := ih cache _ _ s c' h'
          simp only [addLink_eq] at iTC iBC iLC iSC
          refine ⟨?_, ?_, ?_, ?_⟩
          · intro hb
            rw [show sumSubField TreeSize.TreeCount cache.treeSizes (e :: rest) =
                sumSubField TreeSize.TreeCount cache.treeSizes rest by
              simp [sumSubField, hnotsub]] at hb ⊢
            have := iTC (by omega)
            omega
          · intro hb
            rw [show sumSubField TreeSize.BlobCount cache.treeSizes (e :: rest) =
                sumSubField TreeSize.BlobCount cache.treeSizes rest by
              simp [sumSubField, hnotsub]] at hb ⊢
            rw [show countMatching isBlobEntry (e :: rest) = countMatching isBlobEntry rest by
              simp [countMatching, hnb]] at hb ⊢
            have := iBC (by omega)
            omega
          · intro hb
            rw [show sumSubField TreeSize.LinkCount cache.treeSizes (e :: rest) =
                sumSubField TreeSize.LinkCount cache.treeSizes rest by
              simp [sumSubField, hnotsub]] at hb ⊢
            rw [show countMatching isSymlinkEntry (e :: rest) =
                1 + countMatching isSymlinkEntry rest by
              simp [countMatching, hsl]] at hb ⊢
            have hxy : size.LinkCount + 1 < U64 := by omega
            simp only [addCapped_of_lt hxy] at iLC
            have := iLC (by omega)
            omega
          · intro hb
            rw [show sumSubField TreeSize.SubmoduleCount cache.treeSizes (e :: rest) =
                sumSubField TreeSize.SubmoduleCount cache.treeSizes rest by
              simp [sumSubField, hnotsub]] at hb ⊢
            rw [show countMatching isSubmoduleEntry (e :: rest) =
                countMatching isSubmoduleEntry rest by
              simp [countMatching, hns]] at hb ⊢
            have := iSC (by omega)
            omega
        · have hbl : isBlobEntry e = true := isBlobEntry_iff.mpr ⟨h1, h2, h3⟩
          have hnl : ¬ isSymlinkEntry e = true := by simp [isSymlinkEntry_iff, h3]
          have hns : ¬ isSubmoduleEntry e = true := by simp [isSubmoduleEntry_iff, h2]
          simp only [foldEntries, if_neg h1, if_neg h2, if_neg h3] at h
          cases hbk : lookupA cache.blobSizes e.Oid with
          | some blobSize =>
            simp only [hbk] at h
            have h' : foldEntries repo cache rest none true ((ec + 1) % U64)
                (size.addBlob e.Name blobSize) = (.ok s, c') := h
            obtain ⟨iTC, iBC, iLC, iSC⟩ := ih cache _ _ s c' h'
            simp only [addBlob_eq] at iTC iBC iLC iSC
            refine ⟨?_, ?_, ?_, ?_⟩
            · intro hb
              rw [show sumSubField TreeSize.TreeCount cache.treeSizes (e :: rest) =
                  sumSubField TreeSize.TreeCount cache.treeSizes rest by
                simp [sumSubField, hnotsub]] at hb ⊢
              have := iTC (by omega)
              omega
            · intro hb
              rw [show sumSubField TreeSize.BlobCount cache.treeSizes (e :: rest) =
                  sumSubField TreeSize.BlobCount cache.treeSizes rest by
                simp [sumSubField, hnotsub]] at hb ⊢
              rw [show countMatching isBlobEntry (e :: rest) =
                  1 + countMatching isBlobEntry rest by
                simp [countMatching, hbl]] at hb ⊢
              have hxy : size.BlobCount + 1 < U64 := by omega
              simp only [addCapped_of_lt hxy] at iBC
              have := iBC (by omega)
              omega
            · intro hb
              rw [show sumSubField TreeSize.LinkCount cache.treeSizes (e :: rest) =
                  sumSubField TreeSize.LinkCount cache.treeSizes rest by
                simp [sumSubField, hnotsub]] at hb ⊢
              rw [show countMatching isSymlinkEntry (e :: rest) =
                  countMatching isSymlinkEntry rest by
                simp [countMatching, hnl]] at hb ⊢
              have := iLC (by omega)
              omega
            · intro hb
              rw [show sumSubField TreeSize.SubmoduleCount cache.treeSizes (e :: rest) =
                  sumSubField TreeSize.SubmoduleCount cache.treeSizes rest by
                simp [sumSubField, hnotsub]] at hb ⊢
              rw [show countMatching isSubmoduleEntry (e :: rest) =
                  countMatching isSubmoduleEntry rest by
                simp [countMatching, hns]] at hb ⊢
              have := iSC (by omega)
              omega
          | none =>
            simp only [hbk] at h
            cases hbs : SizeCache.BlobSize repo cache e.Oid with
            | mk r c1 =>
              simp only [hbs] at h
              cases r with
              | error err => cases h
              | ok blobSize =>
                have he := BlobSize_effects repo cache e.Oid
                rw [hbs] at he
                have hts : c1.treeSizes = cache.treeSizes := he.1
                have h' : foldEntries repo c1 rest none true ((ec + 1) % U64)
                    (size.addBlob e.Name blobSize) = (.ok s, c') := h
                obtain ⟨iTC, iBC, iLC, iSC⟩ := ih c1 _ _ s c' h'
                rw [hts] at iTC iBC iLC iSC
                simp only [addBlob_eq] at iTC iBC iLC iSC
                refine ⟨?_, ?_, ?_, ?_⟩
                · intro hb
                  rw [show sumSubField TreeSize.TreeCount cache.treeSizes (e :: rest) =
                      sumSubField TreeSize.TreeCount cache.treeSizes rest by
                    simp [sumSubField, hnotsub]] at hb ⊢
                  have := iTC (by omega)
                  omega
                · intro hb
                  rw [show sumSubField TreeSize.BlobCount cache.treeSizes (e :: rest) =
                      sumSubField TreeSize.BlobCount cache.treeSizes rest by
                    simp [sumSubField, hnotsub]] at hb ⊢
                  rw [show countMatching isBlobEntry (e :: rest) =
                      1 + countMatching isBlobEntry rest by
                    simp [countMatching, hbl]] at hb ⊢
                  have hxy : size.BlobCount + 1 < U64 := by omega
                  simp only [addCapped_of_lt hxy] at iBC
                  have := iBC (by omega)
                  omega
                · intro hb
                  rw [show sumSubField TreeSize.LinkCount cache.treeSizes (e :: rest) =
                      sumSubField TreeSize.LinkCount cache.treeSizes rest by
                    simp [sumSubField, hnotsub]] at hb ⊢
                  rw [show countMatching isSymlinkEntry (e :: rest) =
                      countMatching isSymlinkEntry rest by
                    simp [countMatching, hnl]] at hb ⊢
                  have := iLC (by omega)
                  omega
                · intro hb
                  rw [show sumSubField TreeSize.SubmoduleCount cache.treeSizes (e :: rest) =
                      sumSubField TreeSize.SubmoduleCount cache.treeSizes rest by
                    simp [sumSubField, hnotsub]] at hb ⊢
                  rw [show countMatching isSubmoduleEntry (e :: rest) =
                      countMatching isSubmoduleEntry rest by
                    simp [countMatching, hns]] at hb ⊢
                  have := iSC (by omega)
                  omega

/-! ### `queueTree`-level consequences -/

lemma ReadTree_error_ne_nyk (repo : Repo) (oid : List Nat) :
    Repo.ReadTree repo oid ≠ .error .notYetKnown := by
  cases hh : repo.headerOf oid with
  | none => simp [Repo.ReadTree, hh]
  | some ts =>
    obtain ⟨t, n⟩ := ts
    by_cases ht : t = "tree" <;> simp [Repo.ReadTree, hh, ht]

lemma queueTree_cache_effects (repo : Repo) (cache : SizeCache) (oid : List Nat) :
    (SizeCache.queueTree repo cache oid).2.treeSizes = cache.treeSizes ∧
    MapLE cache.blobSizes (SizeCache.queueTree repo cache oid).2.blobSizes := by
  cases hrt : Repo.ReadTree repo oid with
  | error e =>
    rw [queueTree_error hrt]
    exact ⟨rfl, MapLE_refl _⟩
  | ok data =>
    rw [queueTree_eq_foldEntries hrt]
    exact foldEntries_effects repo _ cache _ true 0 _

lemma queueTree_ok_todo {repo : Repo} {cache c' : SizeCache} {oid : List Nat} {s : TreeSize}
    (h : SizeCache.queueTree repo cache oid = (.ok s, c')) : c'.todo = cache.todo := by
  cases hrt : Repo.ReadTree repo oid with
  | error e =>
    rw [queueTree_error hrt] at h
    cases h
  | ok data =>
    rw [queueTree_eq_foldEntries hrt] at h
    exact foldEntries_ok_todo repo _ cache _ 0 _ s c' h

lemma queueTree_nyk {repo : Repo} {cache c1 : SizeCache} {oid : List Nat}
    (h : SizeCache.queueTree repo cache oid = (.error .notYetKnown, c1)) :
    ∃ data, Repo.ReadTree repo oid = .ok data ∧ (parseEntries data).2 = none ∧
      c1.todo = (pushedList cache.treeSizes (parseEntries data).1).reverse ++ cache.todo ∧
      (∀ e ∈ (parseEntries data).1, isBlobEntry e = true →
        lookupA c1.blobSizes e.Oid ≠ none) := by
  cases hrt : Repo.ReadTree repo oid with
  | error e =>
    rw [queueTree_error hrt] at h
    cases h
    exact absurd hrt (ReadTree_error_ne_nyk repo oid)
  | ok data =>
    rw [queueTree_eq_foldEntries hrt] at h
    obtain ⟨ht, htodo, hblob⟩ := foldEntries_nyk repo _ cache _ true 0 _ c1 h
    exact ⟨data, rfl, ht, htodo, hblob⟩

lemma queueTree_second {repo : Repo} {c2 : SizeCache} {oid data : List Nat}
    (hrt : Repo.ReadTree repo oid = .ok data)
    (htail : (parseEntries data).2 = none)
    (hsub2 : ∀ e ∈ (parseEntries data).1, isSubtreeEntry e = true →
      lookupA c2.treeSizes e.Oid ≠ none)
    (hblob2 : ∀ e ∈ (parseEntries data).1, isBlobEntry e = true →
      lookupA c2.blobSizes e.Oid ≠ none) :
    ∃ s c3, SizeCache.queueTree repo c2 oid = (.ok s, c3) ∧ c3.todo = c2.todo ∧
      c3.treeSizes = c2.treeSizes ∧ MapLE c2.blobSizes c3.blobSizes := by
  obtain ⟨s, c3, hr⟩ := foldEntries_ok_of_conditions repo (parseEntries data).1 c2 0
    { TreeCount := 1 } hsub2 (fun e he hb => Or.inl (hblob2 e he hb))
  have heff := foldEntries_effects repo (parseEntries data).1 c2 none true 0 { TreeCount := 1 }
  rw [hr] at heff
  have htodo := foldEntries_ok_todo repo (parseEntries data).1 c2 none 0 { TreeCount := 1 } s c3 hr
  refine ⟨s, c3, ?_, htodo, heff.1, heff.2⟩
  rw [queueTree_eq_foldEntries hrt, htail]
  exact hr

/-! ### The `fill` iteration -/

lemma fillIter_add (repo : Repo) :
    ∀ m n cache,
      SizeCache.fillIter repo (m + n) cache =
        match SizeCache.fillIter repo m cache with
        | .finished r c => .finished r c
        | .running c => SizeCache.fillIter repo n c := by
  intro m
  induction m with
  | zero =>
    intro n cache
    simp [SizeCache.fillIter]
  | succ k ih =>
    intro n cache
    have : k + 1 + n = (k + n) + 1 := by omega
    rw [this]
    simp only [SizeCache.fillIter]
    cases hs : SizeCache.fillStep repo cache with
    | finished r c => rfl
    | running c => exact ih n c

lemma fillIter_absorb {repo : Repo} {m : Nat} {cache c' : SizeCache} {r : Except GoErr Unit}
    (h : SizeCache.fillIter repo m cache = .finished r c') (n : Nat) :
    SizeCache.fillIter repo (m + n) cache = .finished r c' := by
  rw [fillIter_add, h]

lemma fillIter_chain {repo : Repo} {m n : Nat} {cache c1 : SizeCache}
    (h : SizeCache.fillIter repo m cache = .running c1) :
    SizeCache.fillIter repo (m + n) cache = SizeCache.fillIter repo n c1 := by
  rw [fillIter_add, h]

lemma fillIter_ok_mem (repo : Repo) :
    ∀ n st c', SizeCache.fillIter repo n st = .finished (.ok ()) c' →
      MapLE st.treeSizes c'.treeSizes ∧ ∀ x ∈ st.todo, lookupA c'.treeSizes x ≠ none := by
  intro n
  induction n with
  | zero =>
    intro st c' h
    simp [SizeCache.fillIter] at h
  | succ n ih =>
    intro st c' h
    cases ht : st.todo with
    | nil =>
      simp only [SizeCache.fillIter, SizeCache.fillStep, ht] at h
      cases h
      exact ⟨MapLE_refl _, by simp⟩
    | cons oid rest =>
      cases hlk : lookupA st.treeSizes oid with
      | some v =>
        simp only [SizeCache.fillIter, SizeCache.fillStep, ht, List.tail_cons, hlk] at h
        obtain ⟨hmap, hmem⟩ := ih _ c' h
        refine ⟨hmap, ?_⟩
        intro x hx
        rcases List.mem_cons.mp hx with rfl | hx'
        · exact MapLE_ne_none hmap (by rw [hlk]; simp)
        · exact hmem x hx'
      | none =>
        cases hq : SizeCache.queueTree repo st oid with
        | mk qr c1 =>
          cases qr with
          | ok s =>
            simp only [SizeCache.fillIter, SizeCache.fillStep, ht, hlk, hq] at h
            obtain ⟨hmap, hmem⟩ := ih _ c' h
            have heff := queueTree_cache_effects repo st oid
            rw [hq] at heff
            have hts : c1.treeSizes = st.treeSizes := heff.1
            have htodo : c1.todo = st.todo := queueTree_ok_todo hq
            have hins : MapLE st.treeSizes ((oid, s) :: c1.treeSizes) := by
              rw [hts]
              exact MapLE_insert hlk s
            refine ⟨MapLE_trans hins hmap, ?_⟩
            intro x hx
            rcases List.mem_cons.mp hx with rfl | hx'
            · exact MapLE_ne_none hmap (by rw [lookupA_cons_self]; simp)
            · refine hmem x ?_
              show x ∈ c1.todo.tail
              rw [htodo, ht, List.tail_cons]
              exact hx'
          | error e =>
            cases e
            case notYetKnown =>
              simp only [SizeCache.fillIter, SizeCache.fillStep, ht, hlk, hq] at h
              obtain ⟨hmap, hmem⟩ := ih _ c' h
              have heff := queueTree_cache_effects repo st oid
              rw [hq] at heff
              have hts : c1.treeSizes = st.treeSizes := heff.1
              rw [hts] at hmap
              refine ⟨hmap, ?_⟩
              intro x hx
              refine hmem x ?_
              obtain ⟨data, _, _, htodo1, _⟩ := queueTree_nyk hq
              rw [htodo1]
              refine List.mem_append_right _ ?_
              rw [ht]
              exact hx
            all_goals
              simp only [SizeCache.fillIter, SizeCache.fillStep, ht, hlk, hq] at h
            all_goals simp at h

/-- The key progress property of one stack entry: starting from any state
whose top is `x`, the loop either aborts with an error or, after finitely
many passes, has popped exactly that entry, has only grown the two tables,
and has memoized `x`. -/
def TopProcessed (repo : Repo) (x : List Nat) : Prop :=
  ∀ cache rest, cache.todo = x :: rest →
    ∃ n, (∃ e c', SizeCache.fillIter repo n cache = .finished (.error e) c') ∨
      (∃ c', SizeCache.fillIter repo n cache = .running c' ∧ c'.todo = rest ∧
        MapLE cache.treeSizes c'.treeSizes ∧ MapLE cache.blobSizes c'.blobSizes ∧
        lookupA c'.treeSizes x ≠ none)

lemma processListAux (repo : Repo) :
    ∀ cs : List (List Nat), (∀ o ∈ cs, TopProcessed repo o) →
      ∀ cache rest, cache.todo = cs ++ rest →
        ∃ n, (∃ e c', SizeCache.fillIter repo n cache = .finished (.error e) c') ∨
          (∃ c', SizeCache.fillIter repo n cache = .running c' ∧ c'.todo = rest ∧
            MapLE cache.treeSizes c'.treeSizes ∧ MapLE cache.blobSizes c'.blobSizes ∧
            ∀ o ∈ cs, lookupA c'.treeSizes o ≠ none) := by
  intro cs
  induction cs with
  | nil =>
    intro _ cache rest htodo
    refine ⟨0, Or.inr ⟨cache, rfl, ?_, MapLE_refl _, MapLE_refl _, by simp⟩⟩
    simpa using htodo
  | cons o cs' ih =>
    intro hp cache rest htodo
    have hP := hp o (List.mem_cons_self _ _)
    obtain ⟨n1, h1⟩ := hP cache (cs' ++ rest) (by simpa using htodo)
    rcases h1 with ⟨e, ce, herr⟩ | ⟨c1, hrun, htodo1, hm1t, hm1b, hmemo⟩
    · exact ⟨n1, Or.inl ⟨e, ce, herr⟩⟩
    · obtain ⟨n2, h2⟩ := ih (fun o' ho' => hp o' (List.mem_cons_of_mem _ ho')) c1 rest htodo1
      rcases h2 with ⟨e, ce, herr2⟩ | ⟨c2, hrun2, htodo2, hm2t, hm2b, hmemo2⟩
      · refine ⟨n1 + n2, Or.inl ⟨e, ce, ?_⟩⟩
        rw [fillIter_chain hrun]
        exact herr2
      · refine ⟨n1 + n2, Or.inr ⟨c2, ?_, htodo2, MapLE_trans hm1t hm2t,
          MapLE_trans hm1b hm2b, ?_⟩⟩
        · rw [fillIter_chain hrun]
          exact hrun2
        · intro o' ho'
          rcases List.mem_cons.mp ho' with rfl | hmem'
          · exact MapLE_ne_none hm2t hmemo
          · exact hmemo2 o' hmem'

lemma fillTermAux (repo : Repo) (rank : List Nat → Nat)
    (hrank : ∀ x c, c ∈ subtreeChildren repo x → rank c < rank x) :
    ∀ R x, rank x < R → TopProcessed repo x := by
  intro R
  induction R with
  | zero => intro x hx; omega
  | succ R ihR =>
    intro x hx cache rest htodo
    cases hlk : lookupA cache.treeSizes x with
    | some v =>
      refine ⟨1, Or.inr ⟨{ cache with todo := cache.todo.tail }, ?_, ?_,
        MapLE_refl _, MapLE_refl _, by rw [hlk]; simp⟩⟩
      · simp only [SizeCache.fillIter, SizeCache.fillStep, htodo, hlk]
      · rw [htodo, List.tail_cons]
    | none =>
      cases hq : SizeCache.queueTree repo cache x with
      | mk qr c1 =>
        have heff := queueTree_cache_effects repo cache x
        rw [hq] at heff
        cases qr with
        | ok s =>
          have htodo1 : c1.todo = cache.todo := queueTree_ok_todo hq
          refine ⟨1, Or.inr
            ⟨{ c1 with treeSizes := (x, s) :: c1.treeSizes, todo := c1.todo.tail },
              ?_, ?_, ?_, heff.2, by rw [lookupA_cons_self]; simp⟩⟩
          · simp only [SizeCache.fillIter, SizeCache.fillStep, htodo, hlk, hq]
          · rw [htodo1, htodo, List.tail_cons]
          · have hts : c1.treeSizes = cache.treeSizes := heff.1
            rw [hts]
            exact MapLE_insert hlk s
        | error e =>
          cases e
          case notYetKnown =>
            obtain ⟨data, hrt, htail, htodo1, hblob1⟩ := queueTree_nyk hq
            have step1 : SizeCache.fillIter repo 1 cache = .running c1 := by
              simp only [SizeCache.fillIter, SizeCache.fillStep, htodo, hlk, hq]
            have hchildren : ∀ o ∈ (pushedList cache.treeSizes (parseEntries data).1).reverse,
                TopProcessed repo o := by
              intro o ho
              have ho' : o ∈ pushedList cache.treeSizes (parseEntries data).1 :=
                List.mem_reverse.mp ho
              have hoc : o ∈ subtreeChildren repo x := by
                simp only [subtreeChildren, hrt]
                exact pushedList_subset ho'
              exact ihR o (by have := hrank x o hoc; omega)
            obtain ⟨n2, h2⟩ := processListAux repo _ hchildren c1 (x :: rest)
              (by rw [htodo1, htodo])
            rcases h2 with ⟨e, ce, herr2⟩ | ⟨c2, hrun2, htodo2, hm2t, hm2b, hmemo2⟩
            · refine ⟨1 + n2, Or.inl ⟨e, ce, ?_⟩⟩
              rw [fillIter_chain step1]
              exact herr2
            · have hm_ct : MapLE cache.treeSizes c2.treeSizes := by
                have hts : c1.treeSizes = cache.treeSizes := heff.1
                rw [← hts]
                exact hm2t
              have hm_cb : MapLE cache.blobSizes c2.blobSizes := MapLE_trans heff.2 hm2b
              cases hlk2 : lookupA c2.treeSizes x with
              | some w =>
                refine ⟨1 + (n2 + 1), Or.inr ⟨{ c2 with todo := c2.todo.tail }, ?_, ?_,
                  hm_ct, hm_cb, by rw [hlk2]; simp⟩⟩
                · rw [fillIter_chain step1, fillIter_chain hrun2]
                  simp only [SizeCache.fillIter, SizeCache.fillStep, htodo2, hlk2]
                · rw [htodo2, List.tail_cons]
              | none =>
                have hsub2 : ∀ e ∈ (parseEntries data).1, isSubtreeEntry e = true →
                    lookupA c2.treeSizes e.Oid ≠ none := by
                  intro e he hs
                  cases hle : lookupA cache.treeSizes e.Oid with
                  | some v => exact MapLE_ne_none hm_ct (by rw [hle]; simp)
                  | none =>
                    have hmem : e.Oid ∈ pushedList cache.treeSizes (parseEntries data).1 :=
                      mem_pushedList he hs hle
                    exact hmemo2 e.Oid (List.mem_reverse.mpr hmem)
                have hblob2 : ∀ e ∈ (parseEntries data).1, isBlobEntry e = true →
                    lookupA c2.blobSizes e.Oid ≠ none := by
                  intro e he hb
                  exact MapLE_ne_none hm2b (hblob1 e he hb)
                obtain ⟨s, c3, hq2, htodo3, hts3, hmb3⟩ :=
                  queueTree_second hrt htail hsub2 hblob2
                refine ⟨1 + (n2 + 1), Or.inr
                  ⟨{ c3 with treeSizes := (x, s) :: c3.treeSizes, todo := c3.todo.tail },
                    ?_, ?_, ?_, ?_, by rw [lookupA_cons_self]; simp⟩⟩
                · rw [fillIter_chain step1, fillIter_chain hrun2]
                  simp only [SizeCache.fillIter, SizeCache.fillStep, htodo2, hlk2, hq2]
                · rw [htodo3, htodo2, List.tail_cons]
                · have : MapLE c2.treeSizes ((x, s) :: c3.treeSizes) := by
                    rw [hts3]
                    exact MapLE_insert hlk2 s
                  exact MapLE_trans hm_ct this
                · exact MapLE_trans hm_cb hmb3
          all_goals
            exact ⟨1, Or.inl ⟨_, c1, by
              simp only [SizeCache.fillIter, SizeCache.fillStep, htodo, hlk, hq]
              rfl⟩⟩

/-- An upper bound on the ranks of a list of oids. -/
def maxRankOf (rank : List Nat → Nat) : List (List Nat) → Nat
  | [] => 0
  | o :: rest => max (rank o) (maxRankOf rank rest)

lemma lt_maxRankOf_succ {rank : List Nat → Nat} :
    ∀ {l : List (List Nat)} {o : List Nat}, o ∈ l → rank o < maxRankOf rank l + 1 := by
  intro l
  induction l with
  | nil => intro o ho; cases ho
  | cons x rest ih =>
    intro o ho
    rcases List.mem_cons.mp ho with rfl | hmem
    · simp only [maxRankOf]
      omega
    · have := ih hmem
      simp only [maxRankOf]
      omega

lemma fillIter_terminates (repo : Repo) (rank : List Nat → Nat)
    (hrank : ∀ x c, c ∈ subtreeChildren repo x → rank c < rank x) (cache : SizeCache) :
    ∃ n r c', SizeCache.fillIter repo n cache = .finished r c' ∧
      (r = .ok () → c'.todo = []) := by
  have hp : ∀ o ∈ cache.todo, TopProcessed repo o := by
    intro o ho
    exact fillTermAux repo rank hrank (maxRankOf rank cache.todo + 1) o (lt_maxRankOf_succ ho)
  obtain ⟨n, h⟩ := processListAux repo cache.todo hp cache [] (by simp)
  rcases h with ⟨e, ce, herr⟩ | ⟨c', hrun, htodo', _, _, _⟩
  · exact ⟨n, .error e, ce, herr, fun hh => by cases hh⟩
  · refine ⟨n + 1, .ok (), c', ?_, fun _ => htodo'⟩
    rw [fillIter_chain hrun]
    simp only [SizeCache.fillIter, SizeCache.fillStep, htodo']

/-! ### A tree with 2^64 direct entries: the entry counter wraps -/

/-- Payload bytes of one subtree entry: mode `40000`, SP, empty name, NUL,
and a 20-byte child identifier of zeros (27 bytes in total). -/
def ceEntryBytes : List Nat := [52, 48, 48, 48, 48, 32, 0] ++ List.replicate 20 0

/-- The child identifier referenced by every entry of the big tree. -/
def ceChildOid : List Nat := List.replicate 20 0

/-- The identifier of the big tree itself. -/
def ceOid : List Nat := List.replicate 20 1

/-- The decoded form of `ceEntryBytes`. -/
def ceEntry : TreeEntry := { Name := [], Oid := ceChildOid, Filemode := 16384 }

/-- The big tree's payload: `n` copies of `ceEntryBytes`. -/
def ceData : Nat → List Nat
  | 0 => []
  | n + 1 => ceEntryBytes ++ ceData n

/-- A store holding one tree whose payload is `ceData (2 ^ 64)`. -/
def ceRepo : Repo :=
  { headerOf := fun o => if o = ceOid then some ("tree", 0) else none,
    treeDataOf := fun o => if o = ceOid then ceData (2 ^ 64) else [] }

/-- The cache in which the child's record (the all-zero record, so that
merging it changes nothing) is already memoized. -/
def ceCache : SizeCache := { treeSizes := [(ceChildOid, {})] }

/-- The record `queueTree` computes for the big tree. -/
def ceResult : TreeSize := { MaxDepth := 1, TreeCount := 1 }

lemma ceData_length : ∀ n, (ceData n).length = 27 * n := by
  intro n
  induction n with
  | zero => rfl
  | succ k ih =>
    simp only [ceData, List.length_append, ih]
    simp [ceEntryBytes]
    omega

lemma NextEntry_ce (rest : List Nat) :
    NextEntry (ceEntryBytes ++ rest) = .ok (some (ceEntry, rest)) := by
  have htake : (List.replicate 20 (0 : Nat) ++ rest).take 20 = List.replicate 20 0 :=
    List.take_left' (by simp)
  have hdrop : (List.replicate 20 (0 : Nat) ++ rest).drop 20 = rest :=
    List.drop_left' (by simp)
  simp only [ceEntryBytes, List.cons_append, List.nil_append, List.append_assoc]
  simp [NextEntry, splitAtByte, parseOctal32, isOctalDigit, octalValue, ceEntry, ceChildOid,
    htake, hdrop]

lemma ce_parse : ∀ n, parseEntries (ceData n) = (List.replicate n ceEntry, none) := by
  intro n
  induction n with
  | zero => exact parseEntries_end rfl
  | succ k ih =>
    rw [show ceData (k + 1) = ceEntryBytes ++ ceData k from rfl,
      parseEntries_cons (NextEntry_ce (ceData k)), ih]
    simp [List.replicate_succ]

lemma ce_mode_subtree : (16384 : Nat) &&& 0o170000 = 0o040000 := by decide

lemma ce_addDesc :
    (({ TreeCount := 1 } : TreeSize).addDescendent ceEntry.Name {}) = { TreeCount := 1 } := by
  decide

lemma ce_loop : ∀ n fuel ec, 27 * n < fuel → ec < U64 →
    queueTreeLoopF ceRepo fuel ceCache (ceData n) true ec { TreeCount := 1 } =
      (.ok (finalizeTree { TreeCount := 1 } ((ec + n) % U64)), ceCache) := by
  intro n
  induction n with
  | zero =>
    intro fuel ec hfuel hec
    cases fuel with
    | zero => omega
    | succ m =>
      simp only [ceData, queueTreeLoopF]
      rw [show NextEntry [] = .ok none from rfl]
      simp [Nat.mod_eq_of_lt hec]
  | succ k ih =>
    intro fuel ec hfuel hec
    cases fuel with
    | zero => omega
    | succ m =>
      have hstep : NextEntry (ceData (k + 1)) = .ok (some (ceEntry, ceData k)) :=
        NextEntry_ce (ceData k)
      have hlkce : lookupA ceCache.treeSizes ceEntry.Oid = some {} := by
        simp [ceCache, ceEntry, ceChildOid, lookupA]
      simp only [queueTreeLoopF, hstep, hlkce]
      rw [if_pos (show ceEntry.Filemode &&& 0o170000 = 0o040000 by decide)]
      rw [ce_addDesc]
      rw [if_pos trivial]
      rw [ih m ((ec + 1) % U64) (by omega) (Nat.mod_lt _ U64_pos)]
      rw [mod_step]

lemma ce_queueTree : SizeCache.queueTree ceRepo ceCache ceOid = (.ok ceResult, ceCache) := by
  have hrt : Repo.ReadTree ceRepo ceOid = .ok (ceData (2 ^ 64)) := by
    simp [Repo.ReadTree, ceRepo]
  simp only [SizeCache.queueTree, hrt, ceData_length]
  rw [ce_loop (2 ^ 64) (27 * 2 ^ 64 + 1) 0 (by omega) U64_pos]
  rw [show (0 + 2 ^ 64) % U64 = 0 by simp [U64]]
  rw [show finalizeTree { TreeCount := 1 } 0 = ceResult by decide]

/-! ### Maxima over entry lists -/

lemma entriesMaxDepth_le {ts : List (List Nat × TreeSize)} {d : Nat} :
    ∀ {entries : List TreeEntry}, (∀ e ∈ entries, entryDepth ts e ≤ d) →
      entriesMaxDepth ts entries ≤ d := by
  intro entries
  induction entries with
  | nil => intro _; simp [entriesMaxDepth]
  | cons e rest ih =>
    intro h
    simp only [entriesMaxDepth]
    have h1 := h e (List.mem_cons_self _ _)
    have h2 := ih (fun e' he' => h e' (List.mem_cons_of_mem _ he'))
    omega

lemma le_entriesMaxDepth {ts : List (List Nat × TreeSize)} :
    ∀ {entries : List TreeEntry} {e : TreeEntry}, e ∈ entries →
      entryDepth ts e ≤ entriesMaxDepth ts entries := by
  intro entries
  induction entries with
  | nil => intro e he; cases he
  | cons x rest ih =>
    intro e he
    rcases List.mem_cons.mp he with rfl | hmem
    · simp only [entriesMaxDepth]; omega
    · have := ih hmem
      simp only [entriesMaxDepth]
      omega

lemma entriesMaxDepth_leaves {ts : List (List Nat × TreeSize)} :
    ∀ {entries : List TreeEntry}, entries ≠ [] →
      (∀ e ∈ entries, isSubtreeEntry e = false) → entriesMaxDepth ts entries = 1 := by
  intro entries
  induction entries with
  | nil => intro h; exact absurd rfl h
  | cons e rest ih =>
    intro _ hl
    have he : entryDepth ts e = 1 := by
      simp [entryDepth, hl e (List.mem_cons_self _ _)]
    cases rest with
    | nil => simp [entriesMaxDepth, he]
    | cons y ys =>
      have := ih (by simp) (fun e' he' => hl e' (List.mem_cons_of_mem _ he'))
      simp only [entriesMaxDepth] at this ⊢
      omega

/-! ### A decode error after a resolvable prefix surfaces as that error -/

lemma foldEntries_err (repo : Repo) :
    ∀ entries cache msg ok entryCount size,
      (∀ e ∈ entries, isBlobEntry e = true →
        lookupA cache.blobSizes e.Oid ≠ none ∨ ∃ n, repo.headerOf e.Oid = some ("blob", n)) →
      ∃ c', foldEntries repo cache entries (some msg) ok entryCount size =
        (.error (.formatError msg), c') := by
  intro entries
  induction entries with
  | nil =>
    intro cache msg ok ec size _
    exact ⟨cache, rfl⟩
  | cons e rest ih =>
    intro cache msg ok ec size hblob
    by_cases h1 : e.Filemode &&& 0o170000 = 0o040000
    · cases hlk : lookupA cache.treeSizes e.Oid with
      | some subsize =>
        obtain ⟨c', hr⟩ := ih cache msg ok _ _
          (fun e' he' => hblob e' (List.mem_cons_of_mem _ he'))
        refine ⟨c', ?_⟩
        simp only [foldEntries, if_pos h1, hlk]
        exact hr
      | none =>
        obtain ⟨c', hr⟩ := ih { cache with todo := e.Oid :: cache.todo } msg false _ _
          (fun e' he' => hblob e' (List.mem_cons_of_mem _ he'))
        refine ⟨c', ?_⟩
        simp only [foldEntries, if_pos h1, hlk]
        exact hr
    · by_cases h2 : e.Filemode &&& 0o170000 = 0o160000
      · obtain ⟨c', hr⟩ := ih cache msg ok _ _
          (fun e' he' => hblob e' (List.mem_cons_of_mem _ he'))
        refine ⟨c', ?_⟩
        simp only [foldEntries, if_neg h1, if_pos h2]
        exact hr
      · by_cases h3 : e.Filemode &&& 0o170000 = 0o120000
        · obtain ⟨c', hr⟩ := ih cache msg ok _ _
            (fun e' he' => hblob e' (List.mem_cons_of_mem _ he'))
          refine ⟨c', ?_⟩
          simp only [foldEntries, if_neg h1, if_neg h2, if_pos h3]
          exact hr
        · have hb : isBlobEntry e = true := isBlobEntry_iff.mpr ⟨h1, h2, h3⟩
          cases hbk : lookupA cache.blobSizes e.Oid with
          | some blobSize =>
            obtain ⟨c', hr⟩ := ih cache msg ok _ _
              (fun e' he' => hblob e' (List.mem_cons_of_mem _ he'))
            refine ⟨c', ?_⟩
            simp only [foldEntries, if_neg h1, if_neg h2, if_neg h3, hbk]
            exact hr
          | none =>
            rcases hblob e (List.mem_cons_self _ _) hb with hc | ⟨n, hh⟩
            · exact absurd hbk hc
            · have hcall := BlobSize_of_header hbk hh
              obtain ⟨c', hr⟩ := ih { cache with blobSizes := (e.Oid, n) :: cache.blobSizes }
                msg ok _ _
                (fun e' he' hb' => by
                  rcases hblob e' (List.mem_cons_of_mem _ he') hb' with hc | hhdr
                  · exact Or.inl (lookupA_cons_ne_none hc _ _)
                  · exact Or.inr hhdr)
              refine ⟨c', ?_⟩
              simp only [foldEntries, if_neg h1, if_neg h2, if_neg h3, hbk, hcall]
              exact hr

/-- The blob table is consistent with the store: every cached blob size is
the store's header size for an object the store reports as a blob. -/
def blobTableOk (repo : Repo) (cache : SizeCache) : Prop :=
  ∀ o v, lookupA cache.blobSizes o = some v → repo.headerOf o = some ("blob", v)

/-! ### Witness stores -/

/-- A store containing one empty tree. -/
def wTreeOid : List Nat := List.replicate 20 3

/-- A store with no objects at all. -/
def repoNone : Repo := { headerOf := fun _ => none, treeDataOf := fun _ => [] }

/-- A store containing only the empty tree `wTreeOid`. -/
def wRepoE : Repo :=
  { headerOf := fun o => if o = wTreeOid then some ("tree", 0) else none,
    treeDataOf := fun _ => [] }

/-! ## Claims -/

/-- C1, counterexample to the claim as stated.  `queueTree`'s direct-entry
counter (line 500, `entryCount += 1`) is a plain wrapping uint64 addition,
not a saturating one: on a tree with 2^64 direct entries the counter wraps
to 0, and the finalized `MaxTreeEntries` is 0 instead of the saturated
2^64 - 1, so this counter update produced a result smaller than the larger
operand. -/
theorem c1_counterexample :
    SizeCache.queueTree ceRepo ceCache ceOid = (.ok ceResult, ceCache) ∧
    (parseEntries (ceRepo.treeDataOf ceOid)).1.length = 2 ^ 64 ∧
    ceResult.MaxTreeEntries = 0 ∧
    ¬ ceResult.MaxTreeEntries =
      min ((parseEntries (ceRepo.treeDataOf ceOid)).1.length) U64MAX := by
  have hdata : ceRepo.treeDataOf ceOid = ceData (2 ^ 64) := by simp [ceRepo]
  have hlen : (parseEntries (ceRepo.treeDataOf ceOid)).1.length = 2 ^ 64 := by
    rw [hdata, ce_parse]
    exact List.length_replicate _ _
  refine ⟨ce_queueTree, hlen, rfl, ?_⟩
  rw [hlen]
  have h1 : ceResult.MaxTreeEntries = 0 := rfl
  have h2 : min (2 ^ 64) U64MAX = U64MAX := by
    have : U64MAX = 2 ^ 64 - 1 := rfl
    omega
  rw [h1, h2]
  intro habs
  have : U64MAX = 2 ^ 64 - 1 := rfl
  omega

/-- C1, amended: every sum the program computes through `addCapped` is
saturating: for in-range Counts the result is the mathematical sum clamped
to 2^64 - 1, and it is never smaller than either operand.  (The direct
entry counter of `queueTree`, by contrast, is incremented with plain
wrapping addition; see the counterexample.) -/
theorem c1_theorem (n1 n2 : Nat) (h1 : n1 < U64) (h2 : n2 < U64) :
    addCapped n1 n2 = min (n1 + n2) U64MAX ∧
    n1 ≤ addCapped n1 n2 ∧ n2 ≤ addCapped n1 n2 := by
  have hs := addCapped_sat h1 h2
  have : U64MAX = 2 ^ 64 - 1 := rfl
  have hU : U64 = 2 ^ 64 := rfl
  refine ⟨hs, ?_, ?_⟩ <;> rw [hs] <;> omega

/-- Witness for C1 at concrete inputs. -/
theorem c1_witness :
    addCapped 3 4 = min (3 + 4) U64MAX ∧ 3 ≤ addCapped 3 4 ∧ 4 ≤ addCapped 3 4 :=
  c1_theorem 3 4 (by decide) (by decide)

/-- C2: for a successfully computed tree record, an empty tree finalizes
to depth 1; a tree whose entries are all non-subtrees finalizes to depth
2; a tree one of whose entries is a memoized subtree child of depth `d`,
with no deeper subtree child, finalizes to depth `d + 1` (no overflow);
and `MaxTreeEntries` is the maximum of the merged descendants' value and
the tree's own direct entry count. -/
theorem c2_theorem (repo : Repo) (cache : SizeCache) (oid data : List Nat)
    (entries : List TreeEntry) (s : TreeSize) (c' : SizeCache)
    (hrt : Repo.ReadTree repo oid = .ok data)
    (hparse : parseEntries data = (entries, none))
    (hok : SizeCache.queueTree repo cache oid = (.ok s, c')) :
    (entries = [] → s.MaxDepth = 1) ∧
    ((entries ≠ [] ∧ ∀ e ∈ entries, isSubtreeEntry e = false) → s.MaxDepth = 2) ∧
    (∀ d, 1 ≤ d → d + 1 < U64 →
      (∃ e ∈ entries, isSubtreeEntry e = true ∧ (childRecord cache.treeSizes e).MaxDepth = d) →
      (∀ e ∈ entries, isSubtreeEntry e = true → (childRecord cache.treeSizes e).MaxDepth ≤ d) →
      s.MaxDepth = d + 1) ∧
    (entries.length < U64 →
      s.MaxTreeEntries = max (entriesMaxMTE cache.treeSizes entries) entries.length) := by
  rw [queueTree_eq_foldEntries hrt, hparse] at hok
  obtain ⟨hd, hm⟩ := foldEntries_ok_depth repo entries cache 0 _ s c' U64_pos hok
  have hzero : ({ TreeCount := 1 } : TreeSize).MaxDepth = 0 := rfl
  have hzmte : ({ TreeCount := 1 } : TreeSize).MaxTreeEntries = 0 := rfl
  rw [hzero] at hd
  rw [hzmte] at hm
  refine ⟨?_, ?_, ?_, ?_⟩
  · intro he
    subst he
    rw [hd]
    simp only [entriesMaxDepth]
    decide
  · intro hb
    obtain ⟨hne, hl⟩ := hb
    rw [hd, entriesMaxDepth_leaves hne hl]
    decide
  · intro d h1d hdU hex hall
    have hle : entriesMaxDepth cache.treeSizes entries ≤ d := by
      apply entriesMaxDepth_le
      intro e he
      by_cases hs : isSubtreeEntry e = true
      · simp only [entryDepth, hs, if_pos]
        exact hall e he hs
      · have hs' : isSubtreeEntry e = false := by
          revert hs; cases isSubtreeEntry e <;> simp
        simp only [entryDepth, hs']
        simp
        omega
    have hge : d ≤ entriesMaxDepth cache.treeSizes entries := by
      obtain ⟨e0, he0, hs0, hd0⟩ := hex
      have hle0 := @le_entriesMaxDepth cache.treeSizes entries e0 he0
      rw [show entryDepth cache.treeSizes e0 = d by simp [entryDepth, hs0, hd0]] at hle0
      exact hle0
    have heq : entriesMaxDepth cache.treeSizes entries = d := le_antisymm hle hge
    rw [hd, heq, max_eq_right (Nat.zero_le d)]
    exact addCapped_of_lt (by omega)
  · intro hlen
    rw [hm]
    rw [show (0 + entries.length) % U64 = entries.length by
      rw [Nat.zero_add, Nat.mod_eq_of_lt hlen]]
    omega

/-- Witness for C2: the empty tree of `wRepoE` finalizes to depth 1. -/
theorem c2_witness :
    SizeCache.queueTree wRepoE ({} : SizeCache) wTreeOid =
      (.ok { MaxDepth := 1, TreeCount := 1 }, {}) ∧
    ({ MaxDepth := 1, TreeCount := 1 } : TreeSize).MaxDepth = 1 := by
  refine ⟨by decide, ?_⟩
  exact (c2_theorem wRepoE {} wTreeOid [] [] { MaxDepth := 1, TreeCount := 1 } {}
    (by decide) (by decide) (by decide)).1 rfl

/-- Identifier of the tree holding one blob named "x". -/
def c3TreeA : List Nat := List.replicate 20 10

/-- Identifier of the blob named "x". -/
def c3BlobA : List Nat := List.replicate 20 11

/-- Payload of `c3TreeA`: mode 100644, SP, name "x", NUL, blob oid. -/
def c3DataA : List Nat := [49, 48, 48, 54, 52, 52, 32, 120, 0] ++ c3BlobA

/-- Store for the blob example. -/
def c3RepoA : Repo :=
  { headerOf := fun o =>
      if o = c3TreeA then some ("tree", 0)
      else if o = c3BlobA then some ("blob", 10) else none,
    treeDataOf := fun o => if o = c3TreeA then c3DataA else [] }

/-- The record computed for `c3TreeA`. -/
def c3ResA : TreeSize :=
  { MaxDepth := 2, MaxPathLength := 1, TreeCount := 1, MaxTreeEntries := 1,
    BlobCount := 1, BlobSize := 10 }

/-- The decoded entry of `c3TreeA`. -/
def c3EntryA : TreeEntry := { Name := [120], Oid := c3BlobA, Filemode := 33188 }

/-- Cache state after computing `c3TreeA`'s record (the blob size was
memoized on the way). -/
def c3CacheA : SizeCache := { blobSizes := [(c3BlobA, 10)] }

/-- Identifier of the tree holding one subtree named "a". -/
def c3TreeB : List Nat := List.replicate 20 12

/-- Identifier of the subtree child named "a". -/
def c3ChildB : List Nat := List.replicate 20 13

/-- Payload of `c3TreeB`: mode 40000, SP, name "a", NUL, child oid. -/
def c3DataB : List Nat := [52, 48, 48, 48, 48, 32, 97, 0] ++ c3ChildB

/-- Store for the subtree example. -/
def c3RepoB : Repo :=
  { headerOf := fun o => if o = c3TreeB then some ("tree", 0) else none,
    treeDataOf := fun o => if o = c3TreeB then c3DataB else [] }

/-- Cache in which the child's record (path length 3) is memoized. -/
def c3CacheB : SizeCache :=
  { treeSizes := [(c3ChildB, { MaxDepth := 1, MaxPathLength := 3, TreeCount := 1 })] }

/-- The record computed for `c3TreeB`. -/
def c3ResB : TreeSize :=
  { MaxDepth := 2, MaxPathLength := 5, TreeCount := 2, MaxTreeEntries := 1 }

/-- C3: merging a subtree child updates the maximum path length to
`max r.MaxPathLength (len(name) + 1 + c.MaxPathLength)` when the child's
path length is positive (no overflow), and to `max r.MaxPathLength
len(name)` when it is zero; a tree holding one blob named "x" gets path
length 1, and a tree holding one subtree named "a" whose record has path
length 3 gets path length 5. -/
theorem c3_theorem :
    (∀ (r c : TreeSize) (name : List Nat), name.length + 1 + c.MaxPathLength < U64 →
      (r.addDescendent name c).MaxPathLength =
        if 0 < c.MaxPathLength then max r.MaxPathLength (name.length + 1 + c.MaxPathLength)
        else max r.MaxPathLength name.length) ∧
    (SizeCache.queueTree c3RepoA {} c3TreeA = (.ok c3ResA, c3CacheA) ∧
      c3ResA.MaxPathLength = 1) ∧
    (SizeCache.queueTree c3RepoB c3CacheB c3TreeB = (.ok c3ResB, c3CacheB) ∧
      c3ResB.MaxPathLength = 5) := by
  refine ⟨?_, ⟨by decide, rfl⟩, ⟨by decide, rfl⟩⟩
  intro r c name hb
  rw [addDescendent_eq]
  by_cases hc : 0 < c.MaxPathLength
  · rw [if_pos hc, if_pos hc]
    simp only [addCapped_of_lt hb]
  · rw [if_neg hc, if_neg hc]

/-- Witness for C3's general formula at a concrete merge. -/
theorem c3_witness :
    ((({} : TreeSize).addDescendent [97] { MaxPathLength := 3 }).MaxPathLength =
      if 0 < ({ MaxPathLength := 3 } : TreeSize).MaxPathLength then
        max ({} : TreeSize).MaxPathLength
          ([97].length + 1 + ({ MaxPathLength := 3 } : TreeSize).MaxPathLength)
      else max ({} : TreeSize).MaxPathLength [97].length) :=
  c3_theorem.1 {} { MaxPathLength := 3 } [97] (by decide)

/-- C4: for a tree record computed without numeric overflow, the finalized
`TreeCount` is 1 plus the sum of `TreeCount` over the records merged for
its direct subtree entries, and `BlobCount`/`LinkCount`/`SubmoduleCount`
are the sums of the corresponding fields over direct subtree children plus
the number of direct blob/symlink/submodule entries. -/
theorem c4_theorem (repo : Repo) (cache : SizeCache) (oid data : List Nat)
    (entries : List TreeEntry) (s : TreeSize) (c' : SizeCache)
    (hrt : Repo.ReadTree repo oid = .ok data)
    (hparse : parseEntries data = (entries, none))
    (hok : SizeCache.queueTree repo cache oid = (.ok s, c')) :
    (1 + sumSubField TreeSize.TreeCount cache.treeSizes entries < U64 →
      s.TreeCount = 1 + sumSubField TreeSize.TreeCount cache.treeSizes entries) ∧
    (sumSubField TreeSize.BlobCount cache.treeSizes entries +
        countMatching isBlobEntry entries < U64 →
      s.BlobCount = sumSubField TreeSize.BlobCount cache.treeSizes entries +
        countMatching isBlobEntry entries) ∧
    (sumSubField TreeSize.LinkCount cache.treeSizes entries +
        countMatching isSymlinkEntry entries < U64 →
      s.LinkCount = sumSubField TreeSize.LinkCount cache.treeSizes entries +
        countMatching isSymlinkEntry entries) ∧
    (sumSubField TreeSize.SubmoduleCount cache.treeSizes entries +
        countMatching isSubmoduleEntry entries < U64 →
      s.SubmoduleCount = sumSubField TreeSize.SubmoduleCount cache.treeSizes entries +
        countMatching isSubmoduleEntry entries) := by
  rw [queueTree_eq_foldEntries hrt, hparse] at hok
  obtain ⟨iTC, iBC, iLC, iSC⟩ := foldEntries_ok_counts repo entries cache 0 _ s c' hok
  have h1 : ({ TreeCount := 1 } : TreeSize).TreeCount = 1 := rfl
  have h2 : ({ TreeCount := 1 } : TreeSize).BlobCount = 0 := rfl
  have h3 : ({ TreeCount := 1 } : TreeSize).LinkCount = 0 := rfl
  have h4 : ({ TreeCount := 1 } : TreeSize).SubmoduleCount = 0 := rfl
  rw [h1] at iTC
  rw [h2] at iBC
  rw [h3] at iLC
  rw [h4] at iSC
  refine ⟨iTC, ?_, ?_, ?_⟩
  · intro hb
    have := iBC (by omega)
    omega
  · intro hb
    have := iLC (by omega)
    omega
  · intro hb
    have := iSC (by omega)
    omega

/-- Witness for C4: a tree with one blob entry has tree count 1 and blob
count 1. -/
theorem c4_witness :
    c3ResA.TreeCount = 1 + sumSubField TreeSize.TreeCount ({} : SizeCache).treeSizes [c3EntryA] ∧
    c3ResA.BlobCount = sumSubField TreeSize.BlobCount ({} : SizeCache).treeSizes [c3EntryA] +
      countMatching isBlobEntry [c3EntryA] := by
  have h := c4_theorem c3RepoA {} c3TreeA c3DataA [c3EntryA] c3ResA c3CacheA
    (by decide) (by decide) (by decide)
  exact ⟨h.1 (by decide), h.2.1 (by decide)⟩

/-- C5: on a finite acyclic object graph (witnessed by a rank function
that decreases from each tree to its decoded subtree children), the
iterative `fill` loop terminates: some finite number of passes reaches the
loop's Go outcome — normal return (with an empty stack) or a propagated
error. -/
theorem c5_theorem (repo : Repo) (rank : List Nat → Nat)
    (hrank : ∀ x c, c ∈ subtreeChildren repo x → rank c < rank x) (cache : SizeCache) :
    ∃ n r c', SizeCache.fillFuel repo n cache = some (r, c') ∧
      (r = .ok () → c'.todo = []) := by
  obtain ⟨n, r, c', h, himp⟩ := fillIter_terminates repo rank hrank cache
  refine ⟨n, r, c', ?_, himp⟩
  unfold SizeCache.fillFuel
  rw [h]

/-- Witness for C5 on a store with no objects and a one-element stack. -/
theorem c5_witness :
    ∃ n r c', SizeCache.fillFuel repoNone n { todo := [List.replicate 20 9] } =
      some (r, c') ∧ (r = .ok () → c'.todo = []) :=
  c5_theorem repoNone (fun _ => 0)
    (fun x c hc => by simp [subtreeChildren, Repo.ReadTree, repoNone] at hc)
    { todo := [List.replicate 20 9] }

/-- C6: if the fixpoint loop started by `TreeSize(oid)` returns without
error, the tree-record table contains a record for the pushed `oid` (the
post-loop lookup succeeds), and consequently `TreeSize` never reaches the
`panic` of line 431: its outcome is a record or a propagated error, never
the panic. -/
theorem c6_theorem (repo : Repo) (fuel : Nat) (cache : SizeCache) (oid : List Nat) :
    (∀ c', SizeCache.fillFuel repo fuel { cache with todo := oid :: cache.todo } =
        some (.ok (), c') → lookupA c'.treeSizes oid ≠ none) ∧
    (∀ res c', SizeCache.TreeSize repo fuel cache oid = some (res, c') →
      res ≠ .panicked) := by
  have part1 : ∀ c', SizeCache.fillFuel repo fuel { cache with todo := oid :: cache.todo } =
      some (.ok (), c') → lookupA c'.treeSizes oid ≠ none := by
    intro c' h
    unfold SizeCache.fillFuel at h
    cases hit : SizeCache.fillIter repo fuel { cache with todo := oid :: cache.todo } with
    | running c => rw [hit] at h; cases h
    | finished r c =>
      rw [hit] at h
      cases h
      have hmm := fillIter_ok_mem repo fuel _ c' hit
      exact hmm.2 oid (by simp)
  refine ⟨part1, ?_⟩
  intro res c' h
  unfold SizeCache.TreeSize at h
  cases hlk : lookupA cache.treeSizes oid with
  | some s =>
    simp only [hlk] at h
    cases h
    simp
  | none =>
    simp only [hlk] at h
    cases hff : SizeCache.fillFuel repo fuel { cache with todo := oid :: cache.todo } with
    | none =>
      simp only [hff] at h
      cases h
    | some rc =>
      obtain ⟨r, c1⟩ := rc
      cases r with
      | error e =>
        simp only [hff] at h
        cases h
        simp
      | ok u =>
        cases u
        simp only [hff] at h
        have hmem := part1 c1 hff
        cases hl2 : lookupA c1.treeSizes oid with
        | none => exact absurd hl2 hmem
        | some s =>
          simp only [hl2] at h
          cases h
          simp

/-- Cache state after `TreeSize` computes the empty tree of `wRepoE`. -/
def wCacheE : SizeCache := { treeSizes := [(wTreeOid, { MaxDepth := 1, TreeCount := 1 })] }

/-- Witness for C6: computing the empty tree's record does not panic. -/
theorem c6_witness :
    SizeCache.TreeSize wRepoE 2 {} wTreeOid =
      some (.ok { MaxDepth := 1, TreeCount := 1 }, wCacheE) ∧
    (TSResult.ok { MaxDepth := 1, TreeCount := 1 } ≠ .panicked) :=
  ⟨by decide, (c6_theorem wRepoE 2 {} wTreeOid).2 _ wCacheE (by decide)⟩

/-- C7, counterexample to the claim as stated: a response line with fewer
space-separated fields than the format requires does not produce an error
value — `words[1]` panics (index out of range).  The one-field line
consisting of "x" and the newline crashes `ReadHeader`. -/
theorem c7_counterexample : ReadHeaderProto (.line ['x', '\n']) = .panicked := by decide

/-- C7, amended: `ReadHeader` returns NotFound when the store says
"missing", a parse error on a malformed size field, and an I/O error on
channel failure, and returns the parsed type and size on a well-formed
line; `ReadTree` additionally returns a type-mismatch error for non-tree
types, an I/O error on a short payload read, and the size-byte payload
with the trailing delimiter stripped on success.  However, a response
line with fewer space-separated fields than required makes the `words[1]`
or `words[2]` index panic instead of returning an error. -/
theorem c7_theorem :
    (ReadHeaderProto .ioFail = .errChannel) ∧
    (∀ s : List Char, ¬ s.isEmpty = true → (splitOnSpace s.dropLast).length < 2 →
      ReadHeaderProto (.line s) = .panicked) ∧
    (∀ s : List Char, 2 ≤ (splitOnSpace s.dropLast).length →
      (splitOnSpace s.dropLast).getD 1 [] = "missing".toList →
      ReadHeaderProto (.line s) = .errNotFound) ∧
    (∀ s : List Char, 3 ≤ (splitOnSpace s.dropLast).length →
      ¬ (splitOnSpace s.dropLast).getD 1 [] = "missing".toList →
      parseDecimal64 ((splitOnSpace s.dropLast).getD 2 []) = none →
      ReadHeaderProto (.line s) = .errParse) ∧
    (∀ (s : List Char) (n : Nat), 3 ≤ (splitOnSpace s.dropLast).length →
      ¬ (splitOnSpace s.dropLast).getD 1 [] = "missing".toList →
      parseDecimal64 ((splitOnSpace s.dropLast).getD 2 []) = some n →
      ReadHeaderProto (.line s) = .ok ((splitOnSpace s.dropLast).getD 1 []) n) ∧
    (∀ stream, ReadTreeProto .ioFail stream = .errChannel) ∧
    (∀ (s : List Char) stream, 2 ≤ (splitOnSpace s.dropLast).length →
      (splitOnSpace s.dropLast).getD 1 [] = "missing".toList →
      ReadTreeProto (.line s) stream = .errNotFound) ∧
    (∀ (s : List Char) stream, 2 ≤ (splitOnSpace s.dropLast).length →
      ¬ (splitOnSpace s.dropLast).getD 1 [] = "missing".toList →
      ¬ (splitOnSpace s.dropLast).getD 1 [] = "tree".toList →
      ReadTreeProto (.line s) stream = .errType ((splitOnSpace s.dropLast).getD 1 [])) ∧
    (∀ (s : List Char) (stream : List Nat) (n : Nat), 3 ≤ (splitOnSpace s.dropLast).length →
      (splitOnSpace s.dropLast).getD 1 [] = "tree".toList →
      parseDecimal64 ((splitOnSpace s.dropLast).getD 2 []) = some n →
      n < U64MAX → n + 1 ≤ stream.length →
      ReadTreeProto (.line s) stream = .ok ((stream.take (n + 1)).dropLast) ∧
        ((stream.take (n + 1)).dropLast).length = n) ∧
    (∀ (s : List Char) (stream : List Nat) (n : Nat), 3 ≤ (splitOnSpace s.dropLast).length →
      (splitOnSpace s.dropLast).getD 1 [] = "tree".toList →
      parseDecimal64 ((splitOnSpace s.dropLast).getD 2 []) = some n →
      n < U64MAX → stream.length < n + 1 →
      ReadTreeProto (.line s) stream = .errChannel) := by
  have hMU : U64MAX + 1 = U64 := by decide
  have hne2 : ∀ s : List Char, 2 ≤ (splitOnSpace s.dropLast).length → ¬ s.isEmpty = true := by
    intro s hlen habs
    have hs : s = [] := by cases s with | nil => rfl | cons c cs => simp at habs
    subst hs
    simp [splitOnSpace] at hlen
  have hmt : ¬ ("tree".toList = "missing".toList) := by decide
  refine ⟨rfl, ?_, ?_, ?_, ?_, fun _ => rfl, ?_, ?_, ?_, ?_⟩
  · intro s hne hlen
    simp only [ReadHeaderProto]
    rw [if_neg hne, if_pos hlen]
  · intro s hlen hw1
    simp only [ReadHeaderProto]
    rw [if_neg (hne2 s hlen), if_neg (by omega), if_pos hw1]
  · intro s hlen hw1 hpd
    simp only [ReadHeaderProto]
    rw [if_neg (hne2 s (by omega)), if_neg (by omega), if_neg hw1, if_neg (by omega)]
    simp only [hpd]
  · intro s n hlen hw1 hpd
    simp only [ReadHeaderProto]
    rw [if_neg (hne2 s (by omega)), if_neg (by omega), if_neg hw1, if_neg (by omega)]
    simp only [hpd]
  · intro s stream hlen hw1
    simp only [ReadTreeProto]
    rw [if_neg (hne2 s hlen), if_neg (by omega), if_pos hw1]
  · intro s stream hlen hw1 hwt
    simp only [ReadTreeProto]
    rw [if_neg (hne2 s hlen), if_neg (by omega), if_neg hw1, if_neg hwt]
  · intro s stream n hlen hw1 hpd hnM hstream
    simp only [ReadTreeProto]
    rw [if_neg (hne2 s (by omega)), if_neg (by omega),
      if_neg (by rw [hw1]; exact hmt), if_pos hw1, if_neg (by omega)]
    simp only [hpd]
    rw [show (n + 1) % U64 = n + 1 from Nat.mod_eq_of_lt (by omega)]
    rw [if_neg (by omega), if_neg (by omega)]
    refine ⟨rfl, ?_⟩
    rw [List.length_dropLast, List.length_take]
    omega
  · intro s stream n hlen hw1 hpd hnM hstream
    simp only [ReadTreeProto]
    rw [if_neg (hne2 s (by omega)), if_neg (by omega),
      if_neg (by rw [hw1]; exact hmt), if_pos hw1, if_neg (by omega)]
    simp only [hpd]
    rw [show (n + 1) % U64 = n + 1 from Nat.mod_eq_of_lt (by omega)]
    rw [if_pos (by omega)]

/-- Witness for C7: a well-formed "missing" response line gives NotFound. -/
theorem c7_witness : ReadHeaderProto (.line "ab missing\n".toList) = .errNotFound :=
  c7_theorem.2.2.1 "ab missing\n".toList (by decide) (by decide)

/-- C8: a header lookup through the cache for an identifier absent from
the store — via `ObjectSize` or `BlobSize` — returns the NotFound error,
and the cache comes back unchanged, so neither memoization table contains
an entry for that identifier afterwards. -/
theorem c8_theorem (repo : Repo) (fuel : Nat) (cache : SizeCache) (oid : List Nat)
    (hh : repo.headerOf oid = none)
    (hb : lookupA cache.blobSizes oid = none)
    (ht : lookupA cache.treeSizes oid = none) :
    SizeCache.ObjectSize repo fuel cache oid =
      some (.err "missing" (.missingObject oid), cache) ∧
    SizeCache.BlobSize repo cache oid = (.error (.missingObject oid), cache) ∧
    lookupA cache.blobSizes oid = none ∧ lookupA cache.treeSizes oid = none := by
  refine ⟨?_, ?_, hb, ht⟩
  · simp only [SizeCache.ObjectSize, Repo.ReadHeader, hh]
  · simp only [SizeCache.BlobSize, Repo.ReadHeader, hb, hh]

/-- Witness for C8 on the empty store. -/
theorem c8_witness :
    SizeCache.ObjectSize repoNone 1 {} (List.replicate 20 9) =
      some (.err "missing" (.missingObject (List.replicate 20 9)), {}) ∧
    SizeCache.BlobSize repoNone {} (List.replicate 20 9) =
      (.error (.missingObject (List.replicate 20 9)), {}) ∧
    lookupA ({} : SizeCache).blobSizes (List.replicate 20 9) = none ∧
    lookupA ({} : SizeCache).treeSizes (List.replicate 20 9) = none :=
  c8_theorem repoNone 1 {} (List.replicate 20 9) rfl rfl rfl

/-- C9: a tree whose payload is truncated mid-identifier (fewer than 20
bytes after a name's NUL), with the blob entries of the well-formed prefix
resolvable, makes `TreeSize` on that tree return the decoder's
FormatError, and the tree-record memoization table is exactly what it was
before the call: no record, partial or otherwise, is stored by the failed
traversal. -/
theorem c9_theorem (repo : Repo) (cache : SizeCache) (oid data : List Nat) (fuel : Nat)
    (hlk : lookupA cache.treeSizes oid = none)
    (hrt : Repo.ReadTree repo oid = .ok data)
    (htail : (parseEntries data).2 = some "tree entry ends unexpectedly")
    (hblob : ∀ e ∈ (parseEntries data).1, isBlobEntry e = true →
      lookupA cache.blobSizes e.Oid ≠ none ∨ ∃ n, repo.headerOf e.Oid = some ("blob", n)) :
    ∃ c', SizeCache.TreeSize repo (fuel + 1) cache oid =
      some (.err (.formatError "tree entry ends unexpectedly"), c') ∧
      c'.treeSizes = cache.treeSizes := by
  obtain ⟨c1, hq⟩ := foldEntries_err repo (parseEntries data).1
    { cache with todo := oid :: cache.todo } "tree entry ends unexpectedly" true 0
    { TreeCount := 1 } hblob
  have hq' : SizeCache.queueTree repo { cache with todo := oid :: cache.todo } oid =
      (.error (.formatError "tree entry ends unexpectedly"), c1) := by
    rw [queueTree_eq_foldEntries hrt, htail]
    exact hq
  have heff := queueTree_cache_effects repo { cache with todo := oid :: cache.todo } oid
  rw [hq'] at heff
  have hts : c1.treeSizes = cache.treeSizes := heff.1
  have htodo1 : ({ cache with todo := oid :: cache.todo } : SizeCache).todo =
      oid :: cache.todo := rfl
  have hlk1 : lookupA ({ cache with todo := oid :: cache.todo } : SizeCache).treeSizes oid =
      none := hlk
  have hfill : SizeCache.fillFuel repo (fuel + 1) { cache with todo := oid :: cache.todo } =
      some (.error (.formatError "tree entry ends unexpectedly"), c1) := by
    unfold SizeCache.fillFuel
    simp only [SizeCache.fillIter, SizeCache.fillStep, htodo1, hlk1, hq']
  refine ⟨c1, ?_, hts⟩
  unfold SizeCache.TreeSize
  simp only [hlk, hfill]

/-- Identifier of the truncated tree used as the C9 witness. -/
def c9Oid : List Nat := List.replicate 20 6

/-- A payload truncated mid-identifier: mode and NUL-terminated empty
name, then only 3 of the 20 identifier bytes. -/
def c9Data : List Nat := [52, 48, 48, 48, 48, 32, 0, 1, 2, 3]

/-- Store serving the truncated tree. -/
def c9Repo : Repo :=
  { headerOf := fun o => if o = c9Oid then some ("tree", 0) else none,
    treeDataOf := fun o => if o = c9Oid then c9Data else [] }

/-- Witness for C9 on the truncated store. -/
theorem c9_witness :
    ∃ c', SizeCache.TreeSize c9Repo 1 {} c9Oid =
      some (.err (.formatError "tree entry ends unexpectedly"), c') ∧
      c'.treeSizes = ({} : SizeCache).treeSizes :=
  c9_theorem c9Repo {} c9Oid c9Data 0 rfl (by decide) (by decide)
    (fun e he hb => by
      rw [show (parseEntries c9Data).1 = [] by decide] at he
      cases he)

/-- C10: when the store's header for an identifier reports a type other
than "blob", `BlobSize` returns an error naming that type and leaves the
blob memoization table untouched; and `BlobSize` preserves the invariant
that every entry of the blob table records the size of an object whose
header type was "blob" at lookup time. -/
theorem c10_theorem (repo : Repo) (cache : SizeCache) (oid : List Nat) (t : String) (n : Nat)
    (hmiss : lookupA cache.blobSizes oid = none)
    (hh : repo.headerOf oid = some (t, n))
    (hnb : t ≠ "blob") :
    SizeCache.BlobSize repo cache oid = (.error (.notABlob oid t), cache) ∧
    (∀ cache2 oid2 r c2, blobTableOk repo cache2 →
      SizeCache.BlobSize repo cache2 oid2 = (r, c2) → blobTableOk repo c2) := by
  constructor
  · simp only [SizeCache.BlobSize, Repo.ReadHeader, hmiss, hh]
    rw [if_pos hnb]
  · intro cache2 oid2 r c2 hinv heq
    cases hl : lookupA cache2.blobSizes oid2 with
    | some size =>
      simp only [SizeCache.BlobSize, hl] at heq
      injection heq with h1 h2
      subst h2
      exact hinv
    | none =>
      cases hh2 : repo.headerOf oid2 with
      | none =>
        simp only [SizeCache.BlobSize, Repo.ReadHeader, hl, hh2] at heq
        injection heq with h1 h2
        subst h2
        exact hinv
      | some ts =>
        obtain ⟨ty, sz⟩ := ts
        simp only [SizeCache.BlobSize, Repo.ReadHeader, hl, hh2] at heq
        by_cases hb : ty = "blob"
        · rw [if_neg (by simp [hb])] at heq
          injection heq with h1 h2
          subst h2
          intro o v hv
          simp only [lookupA] at hv
          by_cases ho : oid2 = o
          · rw [if_pos ho] at hv
            cases hv
            rw [← ho, hh2, hb]
          · rw [if_neg ho] at hv
            exact hinv o v hv
        · rw [if_pos hb] at heq
          injection heq with h1 h2
          subst h2
          exact hinv

/-- Witness for C10: in the store holding only the empty tree, asking for
the tree's blob size yields the type-mismatch error against the untouched
empty cache. -/
theorem c10_witness :
    SizeCache.BlobSize wRepoE {} wTreeOid =
      (.error (.notABlob wTreeOid "tree"), {}) ∧
    (∀ cache2 oid2 r c2, blobTableOk wRepoE cache2 →
      SizeCache.BlobSize wRepoE cache2 oid2 = (r, c2) → blobTableOk wRepoE c2) :=
  c10_theorem wRepoE {} wTreeOid "tree" 0 rfl (by simp [wRepoE]) (by decide)
